import Mathlib

/-!
Verification of the xordb repository: a shallow embedding in Lean 4 of the
HDC bit-vector engine (`hdc/vector.go`, `hdc/random.go`), the character
n-gram encoder in its two shipped revisions (`hdc/encoder.go`), the text
normalization helpers, and the semantic cache (`cache/cache.go`), together
with proofs and refutations of the specified properties.

Conventions of the embedding:
- Go `uint64` words are `Nat` kept below `2 ^ 64`; every arithmetic step
  that can overflow applies `% 2 ^ 64` explicitly.
- Go's `math/rand` stream (external library code) is modelled by an
  explicit stream parameter `g : Nat → Nat → Nat`, where `g seed i` is the
  i-th `Uint64()` drawn from a generator seeded with `seed`; the model
  truncates each drawn word to 64 bits.
- `float64` similarity arithmetic is modelled exactly over `ℚ`.
- Go panics are modelled as `Option` results or as preconditions.
-/

namespace hdc

/-- Packed hypervector: `dims` logical bits stored in 64-bit words, exactly
as Go's `hdc.Vector` (`vector.go`). -/
structure Vector where
  dims : Nat
  data : List Nat
deriving DecidableEq, Repr

/-- `numWords` from `vector.go`: `(dims + 63) / 64`. -/
def numWords (dims : Nat) : Nat := (dims + 63) / 64

/-- Number of meaningful bits in the final word: `dims % 64`, except that a
full final word has 64. -/
def lastBits (dims : Nat) : Nat := if dims % 64 = 0 then 64 else dims % 64

/-- Logical bit `i` of a packed vector: bit `i % 64` of word `i / 64`
(missing words read as zero). -/
def getBit (v : Vector) (i : Nat) : Bool :=
  (v.data.getD (i / 64) 0).testBit (i % 64)

/-- Well-formedness of a packed vector as maintained by every constructor in
`vector.go`: positive dimension, exactly `numWords dims` words, every word a
64-bit value, and the final word free of padding bits. -/
def WF (v : Vector) : Prop :=
  0 < v.dims ∧ v.data.length = numWords v.dims ∧
    (∀ w ∈ v.data, w < 2 ^ 64) ∧
    v.data.getD (v.data.length - 1) 0 < 2 ^ lastBits v.dims

instance (v : Vector) : Decidable (WF v) := by
  unfold WF; infer_instance

/-- `zeroPadding` from `vector.go`: clear the bits of the last word beyond
position `dims - 1` (no-op when `dims` is a multiple of 64). -/
def zeroPadding (data : List Nat) (dims : Nat) : List Nat :=
  if dims % 64 = 0 then data
  else data.set (data.length - 1)
    ((data.getD (data.length - 1) 0) &&& (1 <<< (dims % 64) - 1))

/-- `New` from `vector.go`: the all-zero vector (precondition `0 < dims`,
enforced by a panic in Go). -/
def New (dims : Nat) : Vector :=
  ⟨dims, List.replicate (numWords dims) 0⟩

/-- `FromWords` from `vector.go`: copy a caller word slice, zero the
padding; `none` models the panics on `dims ≤ 0` or a wrong slice length. -/
def FromWords (dims : Nat) (data : List Nat) : Option Vector :=
  if 0 < dims ∧ data.length = numWords dims then
    some ⟨dims, zeroPadding data dims⟩
  else none

/-- `Clone` from `vector.go`; in the pure model a copy is the value itself. -/
def Clone (v : Vector) : Vector := ⟨v.dims, v.data⟩

/-- `Permute` from `vector.go`: word `i < w-1` becomes
`(data[i] >> 1) | ((data[i+1] & 1) << 63)`; the last word becomes
`(data[w-1] >> 1) | (bit0 << ((dims-1) % 64))`. -/
def Permute (v : Vector) : Vector :=
  ⟨v.dims, (List.range v.data.length).map (fun i =>
    if i < v.data.length - 1 then
      ((v.data.getD i 0) >>> 1) ||| (((v.data.getD (i + 1) 0) &&& 1) <<< 63)
    else
      ((v.data.getD i 0) >>> 1) |||
        (((v.data.getD 0 0) &&& 1) <<< ((v.dims - 1) % 64)))⟩

/-- Word accumulation of `result.data[i/64] |= 1 << (i%64)` in `Bundle`:
the value of one word after OR-ing `1 <<< b` for every `b < n` with
`f b = true`. -/
def orBits (f : Nat → Bool) : Nat → Nat
  | 0 => 0
  | n + 1 => orBits f n ||| (if f n then 1 <<< n else 0)

/-- The number of input vectors having logical bit `i` set, as accumulated
in the `counts` array of `Bundle`. -/
def bitCount (vecs : List Vector) (i : Nat) : Nat :=
  vecs.countP (fun v => getBit v i)

/-- The result words of `Bundle` for majority threshold `thr`: bit
`i = 64*j + b < dims` of the result is set iff `thr < counts i`. -/
def bundleCore (dims : Nat) (thr : Nat) (vecs : List Vector) : Vector :=
  ⟨dims, (List.range (numWords dims)).map (fun j =>
    orBits (fun b => decide (64 * j + b < dims) &&
      decide (thr < bitCount vecs (64 * j + b))) 64)⟩

/-- `Bundle` from `vector.go`: majority vote with threshold `len/2`;
`none` models the panics on an empty input (`Bundle requires at least one
vector`) and on a dimension mismatch (`requireSameDims`). -/
def Bundle (vecs : List Vector) : Option Vector :=
  match vecs with
  | [] => none
  | v :: rest =>
    if ∀ u ∈ rest, u.dims = v.dims then
      some (bundleCore v.dims ((v :: rest).length / 2) (v :: rest))
    else none

/-- `Bind` from `vector.go`: word-wise XOR (precondition: equal dims,
enforced by `requireSameDims`). -/
def Bind (a b : Vector) : Vector :=
  ⟨a.dims, List.zipWith (fun x y => x ^^^ y) a.data b.data⟩

/-- `bits.OnesCount64` modelled by binary recursion with fuel (any fuel
`≥ n` computes the population count of `n`). -/
def popCountAux : Nat → Nat → Nat
  | 0, _ => 0
  | fuel + 1, n => if n = 0 then 0 else n % 2 + popCountAux fuel (n / 2)

/-- Population count of a word. -/
def popCount (n : Nat) : Nat := popCountAux n n

/-- `Similarity` from `vector.go`: `1 - diff/dims` where `diff` sums the
population counts of the XOR of corresponding words (precondition: equal
dims). Computed exactly over `ℚ` in the model. -/
def Similarity (a b : Vector) : ℚ :=
  let diff := (List.zipWith (fun x y => popCount (x ^^^ y)) a.data b.data).sum
  1 - (diff : ℚ) / (a.dims : ℚ)

/-- `Random` from `random.go`: fill the words from the stream seeded with
`seed`, then zero the padding. The stream `g` abstracts Go's `math/rand`;
each drawn word is truncated to 64 bits. -/
def Random (g : Nat → Nat → Nat) (dims : Nat) (seed : Nat) : Vector :=
  ⟨dims, zeroPadding ((List.range (numWords dims)).map
      (fun i => g seed i % 2 ^ 64)) dims⟩

/-- Total population count of a vector's words. -/
def popTotal (v : Vector) : Nat := (v.data.map popCount).sum

/-- The seed actually passed to `Random` by `symbolTable.get`
(`encoder.go`): Go parses `t.seed ^ uint64(r)*2654435761 + 1` as
`(t.seed XOR (r * 2654435761)) + 1` because binary XOR and `+` share
precedence and associate left, with `*` binding tighter; all in `uint64`
arithmetic. -/
def mixGo (seed c : Nat) : Nat :=
  (((seed % 2 ^ 64) ^^^ (c * 2654435761 % 2 ^ 64)) + 1) % 2 ^ 64

/-- The mixing formula as written in the specification:
`seed XOR (c * 2654435761 + 1)` in unsigned 64-bit arithmetic. Stated only
to be compared against `mixGo`, the formula the code computes. -/
def mixSpec (seed c : Nat) : Nat :=
  (seed % 2 ^ 64) ^^^ ((c * 2654435761 + 1) % 2 ^ 64)

/-- `symbolTable` from `encoder.go`: a lazy map from code point to vector;
the Go map is modelled as an association list. -/
structure SymTable where
  dims : Nat
  seed : Nat
  table : List (Nat × Vector)

/-- `symbolTable.get` from `encoder.go`: return the cached vector, or on
first access compute `Random(dims, mixGo seed r)`, cache and return it. -/
def SymTable.get (g : Nat → Nat → Nat) (t : SymTable) (r : Nat) :
    Vector × SymTable :=
  match t.table.lookup r with
  | some v => (v, t)
  | none =>
    let v := Random g t.dims (mixGo t.seed r)
    (v, ⟨t.dims, t.seed, (r, v) :: t.table⟩)

/-- The symbol vector of a code point as a pure function (the cached and
the freshly computed value coincide along any reachable table, so the
encoder pipeline is modelled with this function). -/
def sym (g : Nat → Nat → Nat) (dims seed : Nat) (r : Char) : Vector :=
  Random g dims (mixGo seed r.toNat)

/-- `Config` from `encoder.go`. -/
structure Config where
  Dims : Nat
  NGramSize : Nat
  StripPunctuation : Bool
  LongTextThresh : Nat
  ChunkSize : Nat
  Seed : Nat

/-- Host-library functions used by the encoder, abstracted: Go's
`strings.ToLower`, `unicode.IsSpace`, `unicode.IsPunct` (external library
code), and the `math/rand` stream of `Random`. -/
structure Host where
  toLower : List Char → List Char
  isSpace : Char → Bool
  isPunct : Char → Bool
  g : Nat → Nat → Nat

/-- `strings.TrimSpace` on a rune sequence: drop leading and trailing
whitespace. -/
def trimSpace (isSpace : Char → Bool) (s : List Char) : List Char :=
  ((s.dropWhile isSpace).reverse.dropWhile isSpace).reverse

/-- Loop of `splitSentences` (`encoder.go` text helpers); `cur` holds the
current segment in reverse (the string builder). -/
def splitSentencesAux (isSpace : Char → Bool) :
    List Char → List Char → List (List Char)
  | [], cur =>
    match trimSpace isSpace cur.reverse with
    | [] => []
    | s => [s]
  | r :: rest, cur =>
    if r = '.' ∨ r = '?' ∨ r = '!' ∨ r = '\n' then
      match trimSpace isSpace cur.reverse with
      | [] => splitSentencesAux isSpace rest []
      | s => s :: splitSentencesAux isSpace rest []
    else splitSentencesAux isSpace rest (r :: cur)

/-- `splitSentences`: split lowercased text on `.`, `?`, `!` and newline,
trimming each piece and dropping empty pieces. -/
def splitSentences (isSpace : Char → Bool) (text : List Char) :
    List (List Char) :=
  splitSentencesAux isSpace text []

/-- Loop of `normalizeSegment`: collapse whitespace runs to one space and
optionally drop punctuation; `prevSpace` is the loop state. -/
def normalizeSegmentAux (isSpace isPunct : Char → Bool) (strip : Bool) :
    List Char → Bool → List Char
  | [], _ => []
  | r :: rest, prevSpace =>
    if isSpace r then
      if prevSpace then normalizeSegmentAux isSpace isPunct strip rest true
      else ' ' :: normalizeSegmentAux isSpace isPunct strip rest true
    else if strip ∧ isPunct r then
      normalizeSegmentAux isSpace isPunct strip rest prevSpace
    else r :: normalizeSegmentAux isSpace isPunct strip rest false

/-- `normalizeSegment` from the text helpers: collapse whitespace, strip
punctuation when configured, then trim. -/
def normalizeSegment (isSpace isPunct : Char → Bool) (strip : Bool)
    (text : List Char) : List Char :=
  trimSpace isSpace (normalizeSegmentAux isSpace isPunct strip text false)

/-- The normalized non-empty sentence segments of an input, shared by both
encoder revisions (`splitSentences(strings.ToLower(text))`, then
`normalizeSegment`, skipping empty results). -/
def segments (h : Host) (strip : Bool) (text : List Char) :
    List (List Char) :=
  ((splitSentences h.isSpace (h.toLower text)).map
    (normalizeSegment h.isSpace h.isPunct strip)).filter (fun s => s ≠ [])

/-- The chunking loop shared verbatim by both revisions of
`encodeChunked`: chunks of length `S` at stride `S/2`; a chunk contributes
iff it has at least `N` runes or is the first; the loop breaks when a
chunk reaches the end. `fuel` bounds the iteration count (any fuel
exceeding `|runes|` is enough since `start` strictly increases). -/
def chunkLoop (S N : Nat) (encOne : List Char → Vector)
    (runes : List Char) : Nat → Nat → List Vector → List Vector
  | 0, _, acc => acc
  | fuel + 1, start, acc =>
    if start < runes.length then
      let e := min (start + S) runes.length
      let chunk := (runes.drop start).take (e - start)
      let acc' := if N ≤ chunk.length ∨ acc = [] then acc ++ [encOne chunk]
        else acc
      if e = runes.length then acc'
      else chunkLoop S N encOne runes fuel (start + S / 2) acc'
    else acc

namespace PureRev

/-- The call `Bundle(vecs...)` on the pure-functional paths, where the
inputs are never empty and share one dimension, so the Go panic cannot
fire; the `New dims` default is unreachable there. -/
def bundleU (dims : Nat) (vecs : List Vector) : Vector :=
  (Bundle vecs).getD (New dims)

/-- Loop of the pure-functional `encodeWindow` (`encoder.go`, second
revision): `result = Bind(result, Permute^i(sym(r_i)))` for `i = 1, …`. -/
def encodeWindowGo (g : Nat → Nat → Nat) (dims seed : Nat) :
    List Char → Nat → Vector → Vector
  | [], _, result => result
  | r :: rest, i, result =>
    encodeWindowGo g dims seed rest (i + 1)
      (Bind result (Permute^[i] (sym g dims seed r)))

/-- Pure-functional `encodeWindow`: position-sensitive binding of one
n-gram window (precondition: the window is non-empty; Go indexes
`runes[0]`). -/
def encodeWindow (g : Nat → Nat → Nat) (dims seed : Nat)
    (runes : List Char) : Vector :=
  match runes with
  | [] => New dims
  | r0 :: rest => encodeWindowGo g dims seed rest 1 (sym g dims seed r0)

/-- Pure-functional `encodeRunes`: per-rune bundling below `NGramSize`,
else bundle of all sliding windows. -/
def encodeRunes (h : Host) (cfg : Config) (runes : List Char) : Vector :=
  if runes.length < cfg.NGramSize then
    let vecs := runes.map (sym h.g cfg.Dims cfg.Seed)
    if vecs = [] then New cfg.Dims else bundleU cfg.Dims vecs
  else
    bundleU cfg.Dims ((List.range (runes.length - cfg.NGramSize + 1)).map
      (fun i => encodeWindow h.g cfg.Dims cfg.Seed
        ((runes.drop i).take cfg.NGramSize)))

/-- Pure-functional `encodeChunked`. -/
def encodeChunked (h : Host) (cfg : Config) (runes : List Char) : Vector :=
  let vecs := chunkLoop cfg.ChunkSize cfg.NGramSize (encodeRunes h cfg)
    runes (runes.length + 1) 0 []
  if vecs = [] then New cfg.Dims else bundleU cfg.Dims vecs

/-- Pure-functional `Encode`. -/
def Encode (h : Host) (cfg : Config) (text : List Char) : Vector :=
  if text = [] then New cfg.Dims
  else
    let vecs := (segments h cfg.StripPunctuation text).map (fun s =>
      if cfg.LongTextThresh < s.length then encodeChunked h cfg s
      else encodeRunes h cfg s)
    if vecs = [] then New cfg.Dims else bundleU cfg.Dims vecs

end PureRev

namespace PooledRev

/-- Modelled from the spec (§4.3): `vectorFromBuf` is absent from src; it
wraps a pooled word buffer of length `W` as a Vector without copying. -/
def vectorFromBuf (dims : Nat) (buf : List Nat) : Vector := ⟨dims, buf⟩

/-- Modelled from the spec (§4.3, §4.4): `bundleInto` is absent from src.
Per the spec the pooled count and destination buffers are zeroed on
acquisition (`pool.go`) and the operation writes the majority vote of the
inputs with threshold `len/2`, so `bundlePooled` returns exactly the
majority-vote words. -/
def bundlePooled (dims : Nat) (vecs : List Vector) : Vector :=
  bundleCore dims (vecs.length / 2) vecs

/-- Loop of `encodeWindowInto` (`encoder.go`, pooled revision). Modelled
from the spec (§4.4, §9) for the absent `permuteInto`/`bindInto`: the
ping-pong buffers compute `Permute^i` of the symbol (each `permuteInto`
fully rewrites its destination with the permutation of its source), and
`bindInto` XORs it into the accumulator `dst` word by word. -/
def encodeWindowGo (g : Nat → Nat → Nat) (dims seed : Nat) :
    List Char → Nat → Vector → Vector
  | [], _, dst => dst
  | r :: rest, i, dst =>
    encodeWindowGo g dims seed rest (i + 1)
      (vectorFromBuf dims (List.zipWith (fun x y => x ^^^ y) dst.data
        (Permute^[i] (sym g dims seed r)).data))

/-- Pooled `encodeWindowInto`: `dst` starts as a copy of the first
symbol's words (`copy(dst.data, sym0.data)` into a buffer of the same
length), then accumulates the permuted symbols (precondition: non-empty
window). -/
def encodeWindow (g : Nat → Nat → Nat) (dims seed : Nat)
    (runes : List Char) : Vector :=
  match runes with
  | [] => New dims
  | r0 :: rest =>
    encodeWindowGo g dims seed rest 1
      (vectorFromBuf dims (sym g dims seed r0).data)

/-- Pooled `encodeRunes`. -/
def encodeRunes (h : Host) (cfg : Config) (runes : List Char) : Vector :=
  if runes.length < cfg.NGramSize then
    let vecs := runes.map (sym h.g cfg.Dims cfg.Seed)
    if vecs = [] then New cfg.Dims else bundlePooled cfg.Dims vecs
  else
    bundlePooled cfg.Dims ((List.range (runes.length - cfg.NGramSize + 1)).map
      (fun i => encodeWindow h.g cfg.Dims cfg.Seed
        ((runes.drop i).take cfg.NGramSize)))

/-- Pooled `encodeChunked` (`vecs[0]` is returned directly when only one
chunk contributes). -/
def encodeChunked (h : Host) (cfg : Config) (runes : List Char) : Vector :=
  let vecs := chunkLoop cfg.ChunkSize cfg.NGramSize (encodeRunes h cfg)
    runes (runes.length + 1) 0 []
  if vecs = [] then New cfg.Dims
  else if vecs.length = 1 then vecs.headD (New cfg.Dims)
  else bundlePooled cfg.Dims vecs

/-- Pooled `Encode` (`vecs[0]` is returned directly for a single
sentence). -/
def Encode (h : Host) (cfg : Config) (text : List Char) : Vector :=
  if text = [] then New cfg.Dims
  else
    let vecs := (segments h cfg.StripPunctuation text).map (fun s =>
      if cfg.LongTextThresh < s.length then encodeChunked h cfg s
      else encodeRunes h cfg s)
    if vecs = [] then New cfg.Dims
    else if vecs.length = 1 then vecs.headD (New cfg.Dims)
    else bundlePooled cfg.Dims vecs

end PooledRev

end hdc

namespace cache

/-- `entry` from `cache.go`: key, hypervector, opaque value and a
timestamp (modelled as a `Nat` supplied by the caller as "now"). -/
structure Entry (V : Type) where
  key : String
  vec : hdc.Vector
  value : V
  ts : Nat
deriving DecidableEq

/-- `Cache` from `cache.go`. `entries` is the LRU list, front = MRU end;
`index` models the key set of the Go map `index` (which maps each present
key to its list element). -/
structure Cache (V : Type) where
  entries : List (Entry V)
  index : List String
  threshold : ℚ
  capacity : Nat
  hits : Nat
  misses : Nat
  sets : Nat
  simSum : ℚ
deriving DecidableEq

/-- `list.MoveToFront` of the element at position `i`. -/
def moveToFront {α : Type _} (l : List α) (i : Nat) : List α :=
  match l[i]? with
  | none => l
  | some a => a :: l.eraseIdx i

/-- Loop of `scanLocked`: `i` is the position of the next entry, `bi`/`bs`
are `bestElem`/`bestSim`; an entry replaces the best iff
`s >= threshold && s > bestSim`. -/
def scanAux {V : Type} (t : ℚ) (q : hdc.Vector) :
    List (Entry V) → Nat → Option Nat → ℚ → Option Nat × ℚ
  | [], _, bi, bs => (bi, bs)
  | e :: rest, i, bi, bs =>
    let s := hdc.Similarity q e.vec
    if t ≤ s ∧ bs < s then scanAux t q rest (i + 1) (some i) s
    else scanAux t q rest (i + 1) bi bs

/-- `scanLocked` from `cache.go`: linear scan from the MRU front with
`bestElem = nil`, `bestSim = 0`. -/
def scanLocked {V : Type} (t : ℚ) (q : hdc.Vector) (es : List (Entry V)) :
    Option Nat × ℚ :=
  scanAux t q es 0 none 0

/-- `Cache.Get` from `cache.go`. Returns (value, hit, similarity) and the
cache after the call. The inner `none` branch is unreachable: the scan
only yields in-range indices. -/
def Cache.Get {V : Type} (enc : String → hdc.Vector) (c : Cache V)
    (key : String) : Option V × Bool × ℚ × Cache V :=
  let vec := enc key
  match scanLocked c.threshold vec c.entries with
  | (none, _) => (none, false, 0, {c with misses := c.misses + 1})
  | (some i, s) =>
    match c.entries[i]? with
    | none => (none, false, 0, {c with misses := c.misses + 1})
    | some e => (some e.value, true, s,
        { c with
          entries := moveToFront c.entries i
          hits := c.hits + 1
          simSum := c.simSum + s })

/-- `evictLocked` from `cache.go`: remove the LRU-end entry (the list
back) and its index key, if any. -/
def Cache.evictLocked {V : Type} (c : Cache V) : Cache V :=
  match c.entries.getLast? with
  | none => c
  | some e =>
    { c with
      entries := c.entries.dropLast
      index := c.index.erase e.key }

/-- `Cache.Set` from `cache.go`: bump `sets`; on an exact-key match update
that entry in place and promote it; otherwise evict at capacity, then push
the new entry at the front and register its key. The inner `none` branch
is unreachable when index and entries agree. -/
def Cache.Set {V : Type} (enc : String → hdc.Vector) (c : Cache V)
    (key : String) (v : V) (now : Nat) : Cache V :=
  let vec := enc key
  let c1 := {c with sets := c.sets + 1}
  if key ∈ c1.index then
    match c1.entries.findIdx? (fun e => decide (e.key = key)) with
    | some i => {c1 with entries := moveToFront (c1.entries.set i ⟨key, vec, v, now⟩) i}
    | none => c1
  else
    let c2 := if c1.capacity ≤ c1.entries.length then c1.evictLocked else c1
    { c2 with
      entries := ⟨key, vec, v, now⟩ :: c2.entries
      index := key :: c2.index }

/-- `Cache.Delete` from `cache.go`: exact-key removal from both
structures. -/
def Cache.Delete {V : Type} (c : Cache V) (key : String) :
    Bool × Cache V :=
  if key ∈ c.index then
    (true,
      { c with
        entries := c.entries.eraseP (fun e => decide (e.key = key))
        index := c.index.erase key })
  else (false, c)

/-- `cache.New` from `cache.go` (precondition: `0 < capacity` and
`threshold ∈ (0, 1]`, enforced by panics in Go). -/
def Cache.mkNew (V : Type) (t : ℚ) (cap : Nat) : Cache V :=
  ⟨[], [], t, cap, 0, 0, 0, 0⟩

/-- A completed public cache operation. -/
inductive Op (V : Type) where
  | set (key : String) (v : V) (now : Nat)
  | get (key : String)
  | del (key : String)

/-- One completed operation; `Get` also reports its (hit, similarity)
outcome. -/
def step {V : Type} (enc : String → hdc.Vector) (c : Cache V) :
    Op V → Cache V × Option (Bool × ℚ)
  | .set k v now => (Cache.Set enc c k v now, none)
  | .get k =>
    let r := Cache.Get enc c k
    (r.2.2.2, some (r.2.1, r.2.2.1))
  | .del k => ((Cache.Delete c k).2, none)

/-- Run a finite sequence of completed operations, collecting every `Get`
outcome. -/
def exec {V : Type} (enc : String → hdc.Vector) (c : Cache V) :
    List (Op V) → Cache V × List (Bool × ℚ)
  | [] => (c, [])
  | op :: rest =>
    let r := step enc c op
    let t := exec enc r.1 rest
    (t.1, r.2.toList ++ t.2)

/-- The number of `get` operations in a sequence. -/
def countGets {V : Type} (ops : List (Op V)) : Nat :=
  ops.countP (fun op => match op with | .get _ => true | _ => false)

/-- The number of `set` operations in a sequence. -/
def countSets {V : Type} (ops : List (Op V)) : Nat :=
  ops.countP (fun op => match op with | .set _ _ _ => true | _ => false)

/-- The sum of the similarities reported on hits. -/
def hitsSum (rs : List (Bool × ℚ)) : ℚ :=
  (rs.map (fun r => if r.1 then r.2 else 0)).sum

/-- The cache-state invariant of the spec (§3): no duplicate keys, the
index holds exactly the stored keys, the capacity bound, and every stored
vector well-formed with the configured dimension. -/
def Inv {V : Type} (D C : Nat) (c : Cache V) : Prop :=
  (c.entries.map Entry.key).Nodup ∧
  List.Perm c.index (c.entries.map Entry.key) ∧
  c.entries.length ≤ C ∧
  ∀ e ∈ c.entries, hdc.WF e.vec ∧ e.vec.dims = D

/-- The scan loop of `scanLocked` restricted to the similarity values of
the entries (proof device: `scanAux` factors through it). -/
def scanSims (t : ℚ) : List ℚ → Nat → Option Nat × ℚ → Option Nat × ℚ
  | [], _, acc => acc
  | s :: rest, k, acc =>
    if t ≤ s ∧ acc.2 < s then scanSims t rest (k + 1) (some k, s)
    else scanSims t rest (k + 1) acc

/-- Position `i` holds the best above-threshold similarity in `sims`: it
is a candidate (`t ≤ s`), every earlier candidate is strictly below it,
and every later candidate is at most it (ties resolve to the earlier
position). -/
def BestAt (t : ℚ) (sims : List ℚ) (i : Nat) (s : ℚ) : Prop :=
  i < sims.length ∧ s = sims.getD i 0 ∧ t ≤ s ∧
    (∀ j, j < i → t ≤ sims.getD j 0 → sims.getD j 0 < s) ∧
    (∀ j, i < j → j < sims.length → t ≤ sims.getD j 0 → sims.getD j 0 ≤ s)

/-- Loop invariant of the scan over the first `k` similarities. -/
def ScanAcc (t : ℚ) (sims : List ℚ) (k : Nat) : Option Nat × ℚ → Prop
  | (none, bs) => bs = 0 ∧ ∀ j, j < k → sims.getD j 0 < t
  | (some i, bs) => i < k ∧ bs = sims.getD i 0 ∧ t ≤ bs ∧
      (∀ j, j < i → t ≤ sims.getD j 0 → sims.getD j 0 < bs) ∧
      (∀ j, i < j → j < k → t ≤ sims.getD j 0 → sims.getD j 0 ≤ bs)

end cache

/-! ## Helper lemmas: list access -/

namespace hdc

theorem getD_map_range {α : Type _} (f : Nat → α) (n j : Nat) (d : α) :
    ((List.range n).map f).getD j d = if j < n then f j else d := by
  by_cases h : j < n
  · rw [List.getD_eq_getElem?_getD, List.getElem?_eq_getElem (by simpa using h)]
    simp [h]
  · rw [List.getD_eq_getElem?_getD, List.getElem?_eq_none (by simpa using Nat.le_of_not_lt h)]
    simp [h]

theorem getD_replicate_zero (n j : Nat) :
    (List.replicate n (0 : Nat)).getD j 0 = 0 := by
  by_cases h : j < n
  · rw [List.getD_eq_getElem?_getD, List.getElem?_eq_getElem (by simpa using h)]
    simp
  · rw [List.getD_eq_getElem?_getD, List.getElem?_eq_none (by simpa using Nat.le_of_not_lt h)]
    rfl

theorem getD_zipWith_xor (l₁ l₂ : List Nat) (h : l₁.length = l₂.length)
    (j : Nat) :
    (List.zipWith (fun x y => x ^^^ y) l₁ l₂).getD j 0 =
      (l₁.getD j 0) ^^^ (l₂.getD j 0) := by
  by_cases hj : j < l₁.length
  · rw [List.getD_eq_getElem?_getD, List.getElem?_eq_getElem
      (by simp [List.length_zipWith, h.symm ▸ Nat.min_self l₁.length]; omega)]
    rw [List.getD_eq_getElem?_getD, List.getElem?_eq_getElem hj]
    rw [List.getD_eq_getElem?_getD, List.getElem?_eq_getElem (h ▸ hj)]
    simp
  · have h₁ : l₁.length ≤ j := Nat.le_of_not_lt hj
    rw [List.getD_eq_getElem?_getD, List.getElem?_eq_none
      (by simp [List.length_zipWith]; omega)]
    rw [List.getD_eq_getElem?_getD, List.getElem?_eq_none (by simpa using h₁)]
    rw [List.getD_eq_getElem?_getD, List.getElem?_eq_none (by omega)]
    rfl

/-! ## Helper lemmas: orBits and word bounds -/

theorem orBits_testBit (f : Nat → Bool) (n i : Nat) :
    (orBits f n).testBit i = (decide (i < n) && f i) := by
  induction n with
  | zero => simp [orBits]
  | succ n ih =>
    have h1 : (1 <<< n : Nat) = 2 ^ n := Nat.one_shiftLeft n
    rcases Nat.lt_trichotomy i n with h | h | h
    · have hne : n ≠ i := Nat.ne_of_gt h
      by_cases hfn : f n <;>
        simp [orBits, Nat.testBit_lor, ih, hfn, h1, Nat.testBit_two_pow, hne,
          h, Nat.lt_succ_of_lt h]
    · subst h
      by_cases hfn : f i <;>
        simp [orBits, Nat.testBit_lor, ih, hfn, h1, Nat.testBit_two_pow]
    · have hni : ¬ i < n := Nat.not_lt_of_gt h
      have hni' : ¬ i < n + 1 := by omega
      have hne : n ≠ i := Nat.ne_of_lt h
      by_cases hfn : f n <;>
        simp [orBits, Nat.testBit_lor, ih, hfn, h1, Nat.testBit_two_pow, hne,
          hni, hni']

theorem orBits_lt_two_pow (f : Nat → Bool) (n : Nat) : orBits f n < 2 ^ n := by
  induction n with
  | zero => simp [orBits]
  | succ n ih =>
    have h2 : (2 : Nat) ^ n < 2 ^ (n + 1) := by
      exact Nat.pow_lt_pow_succ (by norm_num)
    apply Nat.or_lt_two_pow (Nat.lt_trans ih h2)
    by_cases hfn : f n
    · simpa [hfn, Nat.one_shiftLeft] using h2
    · simpa [hfn] using Nat.pos_pow_of_pos (n + 1) (by norm_num)

theorem orBits_lt_two_pow_of_false (f : Nat → Bool) (n m : Nat)
    (hm : ∀ b, m ≤ b → f b = false) : orBits f n < 2 ^ m := by
  induction n with
  | zero => simpa [orBits] using Nat.pos_pow_of_pos m (by norm_num)
  | succ n ih =>
    by_cases h : m ≤ n
    · have : f n = false := hm n h
      simpa [orBits, this] using ih
    · calc orBits f (n + 1) < 2 ^ (n + 1) := orBits_lt_two_pow f (n + 1)
        _ ≤ 2 ^ m := Nat.pow_le_pow_right (by norm_num) (by omega)

/-! ## Helper lemmas: dimension arithmetic -/

theorem lastBits_pos (dims : Nat) : 0 < lastBits dims := by
  unfold lastBits; split <;> omega

theorem lastBits_le (dims : Nat) : lastBits dims ≤ 64 := by
  unfold lastBits; split <;> omega

theorem dims_decomp (dims : Nat) (h : 0 < dims) :
    dims = 64 * (numWords dims - 1) + lastBits dims := by
  unfold numWords lastBits; split <;> omega

theorem numWords_pos (dims : Nat) (h : 0 < dims) : 0 < numWords dims := by
  unfold numWords; omega

theorem div64_lt_numWords {dims i : Nat} (h : i < dims) :
    i / 64 < numWords dims := by
  unfold numWords; omega

end hdc

/-! ## Padding and extensionality -/

namespace hdc

theorem WF.words_lt {v : Vector} (h : WF v) (j : Nat) :
    v.data.getD j 0 < 2 ^ 64 := by
  by_cases hj : j < v.data.length
  · rw [List.getD_eq_getElem?_getD, List.getElem?_eq_getElem hj]
    exact h.2.2.1 _ (List.getElem_mem hj)
  · rw [List.getD_eq_getElem?_getD, List.getElem?_eq_none (by omega)]
    simpa using Nat.pos_pow_of_pos 64 (by norm_num)

theorem WF.getBit_pad {v : Vector} (h : WF v) {i : Nat} (hi : v.dims ≤ i) :
    getBit v i = false := by
  obtain ⟨hd, hlen, hw, hlast⟩ := h
  unfold getBit
  by_cases hj : i / 64 < v.data.length
  · have hdec := dims_decomp v.dims hd
    have hlb := lastBits_le v.dims
    have hj' : i / 64 = v.data.length - 1 := by
      unfold numWords at hlen; omega
    have hb : lastBits v.dims ≤ i % 64 := by
      unfold numWords at hlen; omega
    rw [hj']
    exact Nat.testBit_lt_two_pow (Nat.lt_of_lt_of_le hlast
      (Nat.pow_le_pow_right (by norm_num) hb))
  · rw [List.getD_eq_getElem?_getD, List.getElem?_eq_none (by omega)]
    simp

theorem Vector.ext_bits {u v : Vector} (hu : WF u) (hv : WF v)
    (hdim : u.dims = v.dims)
    (h : ∀ i, i < u.dims → getBit u i = getBit v i) : u = v := by
  obtain ⟨u_dims, u_data⟩ := u
  obtain ⟨v_dims, v_data⟩ := v
  subst hdim
  have hlen : u_data.length = v_data.length := by
    rw [hu.2.1, hv.2.1]
  congr 1
  apply List.ext_getElem hlen
  intro j hj₁ hj₂
  apply Nat.eq_of_testBit_eq
  intro b
  by_cases hb : b < 64
  case neg =>
    have h₁ : u_data[j] < 2 ^ b :=
      Nat.lt_of_lt_of_le (hu.2.2.1 _ (List.getElem_mem hj₁))
        (Nat.pow_le_pow_right (by norm_num) (by omega))
    have h₂ : v_data[j] < 2 ^ b :=
      Nat.lt_of_lt_of_le (hv.2.2.1 _ (List.getElem_mem hj₂))
        (Nat.pow_le_pow_right (by norm_num) (by omega))
    rw [Nat.testBit_lt_two_pow h₁, Nat.testBit_lt_two_pow h₂]
  case pos =>
    have hq : (64 * j + b) / 64 = j ∧ (64 * j + b) % 64 = b := by omega
    have hgu : getBit ⟨u_dims, u_data⟩ (64 * j + b) = u_data[j].testBit b := by
      unfold getBit
      rw [hq.1, hq.2, List.getD_eq_getElem?_getD, List.getElem?_eq_getElem hj₁]
      rfl
    have hgv : getBit ⟨u_dims, v_data⟩ (64 * j + b) = v_data[j].testBit b := by
      unfold getBit
      rw [hq.1, hq.2, List.getD_eq_getElem?_getD, List.getElem?_eq_getElem hj₂]
      rfl
    by_cases hlt : 64 * j + b < u_dims
    · rw [← hgu, ← hgv]
      exact h _ hlt
    · rw [← hgu, ← hgv, WF.getBit_pad hu (by simp; omega),
        WF.getBit_pad hv (by simp; omega)]

/-! ## zeroPadding and constructor well-formedness -/

theorem length_zeroPadding (data : List Nat) (dims : Nat) :
    (zeroPadding data dims).length = data.length := by
  unfold zeroPadding; split <;> simp


theorem getD_set_last (data : List Nat) (a : Nat) (h : 0 < data.length) :
    (data.set (data.length - 1) a).getD (data.length - 1) 0 = a := by
  rw [List.getD_eq_getElem?_getD, List.getElem?_eq_getElem (by simp; omega)]
  simp [List.getElem_set]

theorem zeroPadding_WF {data : List Nat} {dims : Nat} (hd : 0 < dims)
    (hlen : data.length = numWords dims) (hw : ∀ w ∈ data, w < 2 ^ 64) :
    WF ⟨dims, zeroPadding data dims⟩ := by
  have hnw := numWords_pos dims hd
  have hpos : 0 < data.length := by omega
  have hx : data.getD (data.length - 1) 0 < 2 ^ 64 := by
    rw [List.getD_eq_getElem?_getD, List.getElem?_eq_getElem (by omega)]
    exact hw _ (List.getElem_mem (by omega))
  refine ⟨hd, by simpa [length_zeroPadding] using hlen, ?_, ?_⟩
  · intro w hwmem
    unfold zeroPadding at hwmem
    split at hwmem
    · exact hw w hwmem
    · rcases List.mem_or_eq_of_mem_set hwmem with hmem | heq
      · exact hw w hmem
      · calc w = _ := heq
          _ ≤ data.getD (data.length - 1) 0 := Nat.and_le_left
          _ < 2 ^ 64 := hx
  · rw [length_zeroPadding]
    unfold zeroPadding lastBits
    by_cases h0 : dims % 64 = 0
    · simpa [h0] using hx
    · rw [if_neg h0, if_neg h0, getD_set_last data _ hpos]
      calc data.getD (data.length - 1) 0 &&& (1 <<< (dims % 64) - 1)
          ≤ 1 <<< (dims % 64) - 1 := Nat.and_le_right
        _ < 2 ^ (dims % 64) := by
            rw [Nat.one_shiftLeft]
            have : 0 < 2 ^ (dims % 64) := Nat.pos_pow_of_pos _ (by norm_num)
            omega

theorem New_WF {dims : Nat} (hd : 0 < dims) : WF (New dims) := by
  refine ⟨hd, by simp [New], ?_, ?_⟩
  · intro w hw
    rw [List.eq_of_mem_replicate hw]
    exact Nat.pos_pow_of_pos 64 (by norm_num)
  · simp only [New, getD_replicate_zero]
    exact Nat.pos_pow_of_pos _ (by norm_num)

theorem getBit_New (dims i : Nat) : getBit (New dims) i = false := by
  simp [getBit, New, getD_replicate_zero]

theorem Random_WF (g : Nat → Nat → Nat) {dims : Nat} (seed : Nat)
    (hd : 0 < dims) : WF (Random g dims seed) := by
  apply zeroPadding_WF hd (by simp)
  intro w hw
  simp only [List.mem_map] at hw
  obtain ⟨i, _, rfl⟩ := hw
  exact Nat.mod_lt _ (Nat.pos_pow_of_pos 64 (by norm_num))

theorem FromWords_WF {dims : Nat} {data : List Nat} {v : Vector}
    (h : FromWords dims data = some v) (hw : ∀ w ∈ data, w < 2 ^ 64) :
    WF v := by
  unfold FromWords at h
  split at h
  case isTrue hc =>
    cases h
    exact zeroPadding_WF hc.1 hc.2 hw
  case isFalse => cases h

theorem Random_dims (g : Nat → Nat → Nat) (dims seed : Nat) :
    (Random g dims seed).dims = dims := rfl

end hdc

/-! ## getBit characterizations and well-formedness of the operations -/

namespace hdc

theorem getBit_bundleCore (dims thr : Nat) (vecs : List Vector) {i : Nat}
    (hi : i < dims) :
    getBit (bundleCore dims thr vecs) i = decide (thr < bitCount vecs i) := by
  unfold getBit bundleCore
  simp only
  rw [getD_map_range, if_pos (div64_lt_numWords hi), orBits_testBit]
  have h1 : i % 64 < 64 := Nat.mod_lt _ (by norm_num)
  have h2 : 64 * (i / 64) + i % 64 = i := by omega
  simp [h2, hi, h1]

theorem bundleCore_WF (dims thr : Nat) (vecs : List Vector) (hd : 0 < dims) :
    WF (bundleCore dims thr vecs) := by
  have hnw := numWords_pos dims hd
  have hdec := dims_decomp dims hd
  refine ⟨hd, by simp [bundleCore], ?_, ?_⟩
  · intro w hw
    simp only [bundleCore, List.mem_map] at hw
    obtain ⟨j, _, rfl⟩ := hw
    exact orBits_lt_two_pow _ 64
  · simp only [bundleCore]
    rw [List.length_map, List.length_range, getD_map_range,
      if_pos (by omega)]
    apply orBits_lt_two_pow_of_false
    intro b hb
    have hfb : ¬ (64 * (numWords dims - 1) + b < dims) := by omega
    simp [hfb]

theorem getBit_Bind {a b : Vector} (hlen : a.data.length = b.data.length)
    (i : Nat) : getBit (Bind a b) i = xor (getBit a i) (getBit b i) := by
  unfold getBit Bind
  simp only
  rw [getD_zipWith_xor _ _ hlen, Nat.testBit_xor]

theorem Bind_dims (a b : Vector) : (Bind a b).dims = a.dims := rfl

theorem Bind_WF {a b : Vector} (ha : WF a) (hb : WF b)
    (hdim : a.dims = b.dims) : WF (Bind a b) := by
  have hlen : a.data.length = b.data.length := by
    rw [ha.2.1, hb.2.1, hdim]
  have hlz : (List.zipWith (fun x y => x ^^^ y) a.data b.data).length =
      a.data.length := by
    simp [List.length_zipWith, hlen]
  refine ⟨ha.1, by simpa [Bind, hlz] using ha.2.1, ?_, ?_⟩
  · intro w hw
    simp only [Bind] at hw
    rw [List.mem_iff_getElem] at hw
    obtain ⟨k, hk, rfl⟩ := hw
    rw [List.getElem_zipWith]
    have hk' : k < a.data.length := by
      simpa [List.length_zipWith, hlen] using hk
    exact Nat.xor_lt_two_pow (ha.2.2.1 _ (List.getElem_mem hk'))
      (hb.2.2.1 _ (List.getElem_mem (hlen ▸ hk')))
  · show (List.zipWith _ a.data b.data).getD
      ((List.zipWith _ a.data b.data).length - 1) 0 < _
    rw [hlz, getD_zipWith_xor _ _ hlen]
    have hbits : lastBits (Bind a b).dims = lastBits a.dims := rfl
    apply Nat.xor_lt_two_pow
    · exact ha.2.2.2
    · have := hb.2.2.2
      rw [← hlen, ← hdim] at this
      exact this

theorem Permute_dims (v : Vector) : (Permute v).dims = v.dims := rfl

theorem Permute_WF {v : Vector} (h : WF v) : WF (Permute v) := by
  have hd := h.1
  have hlen := h.2.1
  have hnw := numWords_pos v.dims hd
  have hdec := dims_decomp v.dims hd
  have hlb1 := lastBits_pos v.dims
  have hlb64 := lastBits_le v.dims
  have hwpos : 0 < v.data.length := by omega
  have hhigh : (v.dims - 1) % 64 = lastBits v.dims - 1 := by
    unfold lastBits
    split <;> omega
  have h2p64 : (0:Nat) < 2 ^ 64 := Nat.pos_pow_of_pos _ (by norm_num)
  have hshl : ∀ x m : Nat, ((x &&& 1) <<< m) ≤ 2 ^ m := by
    intro x m
    rw [Nat.shiftLeft_eq]
    have hx1 : x &&& 1 ≤ 1 := Nat.and_le_right
    calc (x &&& 1) * 2 ^ m ≤ 1 * 2 ^ m := Nat.mul_le_mul_right _ hx1
      _ = 2 ^ m := by ring
  have hshl64 : ∀ x m : Nat, m ≤ 63 → ((x &&& 1) <<< m) < 2 ^ 64 := by
    intro x m hm
    calc (x &&& 1) <<< m ≤ 2 ^ m := hshl x m
      _ < 2 ^ 64 := Nat.pow_lt_pow_right (by norm_num) (by omega)
  refine ⟨hd, by simpa [Permute] using hlen, ?_, ?_⟩
  · intro w hw
    simp only [Permute, List.mem_map] at hw
    obtain ⟨j, _, rfl⟩ := hw
    have hsr : ∀ x : Nat, x < 2 ^ 64 → x >>> 1 < 2 ^ 64 := by
      intro x hx
      calc x >>> 1 ≤ x := by
            rw [Nat.shiftRight_eq_div_pow]
            exact Nat.div_le_self _ _
        _ < 2 ^ 64 := hx
    split
    · exact Nat.or_lt_two_pow (hsr _ (h.words_lt j))
        (hshl64 _ 63 (by norm_num))
    · exact Nat.or_lt_two_pow (hsr _ (h.words_lt j))
        (hshl64 _ _ (by omega))
  · have hPl : (Permute v).data.length = v.data.length := by
      simp [Permute]
    rw [hPl]
    show ((List.range v.data.length).map _).getD (v.data.length - 1) 0 < _
    rw [getD_map_range, if_pos (by omega)]
    rw [if_neg (by omega)]
    have hlast := h.2.2.2
    apply Nat.or_lt_two_pow
    · calc v.data.getD (v.data.length - 1) 0 >>> 1
          ≤ v.data.getD (v.data.length - 1) 0 := by
            rw [Nat.shiftRight_eq_div_pow]
            exact Nat.div_le_self _ _
        _ < 2 ^ lastBits (Permute v).dims := hlast
    · calc ((v.data.getD 0 0) &&& 1) <<< ((v.dims - 1) % 64)
          ≤ 2 ^ ((v.dims - 1) % 64) := hshl _ _
        _ < 2 ^ lastBits (Permute v).dims := by
            apply Nat.pow_lt_pow_right (by norm_num)
            show (v.dims - 1) % 64 < lastBits v.dims
            rw [hhigh]
            omega

end hdc

namespace hdc

theorem getBit_Permute {v : Vector} (h : WF v) {i : Nat} (hi : i < v.dims) :
    getBit (Permute v) i = getBit v ((i + 1) % v.dims) := by
  have hd := h.1
  have hlen := h.2.1
  have hnum : numWords v.dims = (v.dims + 63) / 64 := rfl
  have hdec := dims_decomp v.dims hd
  have hlb1 := lastBits_pos v.dims
  have hlb64 := lastBits_le v.dims
  have hhigh : (v.dims - 1) % 64 = lastBits v.dims - 1 := by
    unfold lastBits
    split <;> omega
  have hj : i / 64 < v.data.length := by
    rw [hlen]
    exact div64_lt_numWords hi
  have hword : getBit (Permute v) i =
      (if i / 64 < v.data.length - 1 then
        ((v.data.getD (i / 64) 0) >>> 1) |||
          (((v.data.getD (i / 64 + 1) 0) &&& 1) <<< 63)
      else
        ((v.data.getD (i / 64) 0) >>> 1) |||
          (((v.data.getD 0 0) &&& 1) <<< ((v.dims - 1) % 64))).testBit (i % 64) := by
    unfold getBit Permute
    simp only
    rw [getD_map_range, if_pos hj]
  rw [hword]
  by_cases hA : i / 64 < v.data.length - 1
  · rw [if_pos hA]
    have hi1 : i + 1 < v.dims := by omega
    rw [Nat.mod_eq_of_lt hi1, Nat.testBit_lor]
    by_cases hb : i % 64 < 63
    · have hsl : ((v.data.getD (i / 64 + 1) 0 &&& 1) <<< 63).testBit (i % 64)
          = false := by
        rw [Nat.testBit_shiftLeft]
        simp [Nat.not_le.mpr hb]
      rw [hsl, Bool.or_false, Nat.testBit_shiftRight]
      unfold getBit
      have e1 : (i + 1) / 64 = i / 64 := by omega
      have e2 : (i + 1) % 64 = i % 64 + 1 := by omega
      rw [e1, e2]
      congr 1
      omega
    · have hb63 : i % 64 = 63 := by omega
      have hsr0 : ((v.data.getD (i / 64) 0) >>> 1).testBit (i % 64) = false := by
        rw [Nat.testBit_shiftRight, hb63]
        apply Nat.testBit_lt_two_pow
        have e64 : 1 + 63 = 64 := by norm_num
        rw [e64]
        exact h.words_lt _
      have hsl : ((v.data.getD (i / 64 + 1) 0 &&& 1) <<< 63).testBit (i % 64)
          = (v.data.getD (i / 64 + 1) 0).testBit 0 := by
        rw [Nat.testBit_shiftLeft, hb63]
        simp [Nat.testBit_land]
      rw [hsr0, hsl, Bool.false_or]
      unfold getBit
      have e1 : (i + 1) / 64 = i / 64 + 1 := by omega
      have e2 : (i + 1) % 64 = 0 := by omega
      rw [e1, e2]
  · rw [if_neg hA]
    have hjl : i / 64 = v.data.length - 1 := by omega
    have hblt : i % 64 < lastBits v.dims := by omega
    by_cases hbl : i % 64 < lastBits v.dims - 1
    · have hi1 : i + 1 < v.dims := by omega
      rw [Nat.mod_eq_of_lt hi1, Nat.testBit_lor]
      have hsl : ((v.data.getD 0 0 &&& 1) <<< ((v.dims - 1) % 64)).testBit (i % 64)
          = false := by
        rw [Nat.testBit_shiftLeft]
        have hnle : ¬ ((v.dims - 1) % 64 ≤ i % 64) := by
          rw [hhigh]
          omega
        simp [hnle]
      rw [hsl, Bool.or_false, Nat.testBit_shiftRight]
      unfold getBit
      have e1 : (i + 1) / 64 = i / 64 := by omega
      have e2 : (i + 1) % 64 = i % 64 + 1 := by omega
      rw [e1, e2]
      congr 1
      omega
    · have hbeq : i % 64 = lastBits v.dims - 1 := by omega
      have hieq : i = v.dims - 1 := by omega
      have hmod : (i + 1) % v.dims = 0 := by
        have e : i + 1 = v.dims := by omega
        rw [e, Nat.mod_self]
      rw [hmod, Nat.testBit_lor]
      have hsr0 : ((v.data.getD (i / 64) 0) >>> 1).testBit (i % 64) = false := by
        rw [Nat.testBit_shiftRight]
        apply Nat.testBit_lt_two_pow
        rw [hjl]
        have hL : 1 + i % 64 = lastBits v.dims := by omega
        rw [hL]
        exact h.2.2.2
      have hsl : ((v.data.getD 0 0 &&& 1) <<< ((v.dims - 1) % 64)).testBit (i % 64)
          = (v.data.getD 0 0).testBit 0 := by
        rw [Nat.testBit_shiftLeft, hhigh, hbeq]
        simp [Nat.testBit_land]
      rw [hsr0, hsl, Bool.false_or]
      unfold getBit
      norm_num

theorem Permute_iterate_dims (v : Vector) (n : Nat) :
    (Permute^[n] v).dims = v.dims := by
  induction n with
  | zero => rfl
  | succ n ih =>
    rw [Function.iterate_succ_apply', Permute_dims, ih]

theorem Permute_iterate_WF {v : Vector} (h : WF v) (n : Nat) :
    WF (Permute^[n] v) := by
  induction n with
  | zero => exact h
  | succ n ih =>
    rw [Function.iterate_succ_apply']
    exact Permute_WF ih

theorem getBit_Permute_iterate {v : Vector} (h : WF v) (n : Nat) :
    ∀ i, i < v.dims → getBit (Permute^[n] v) i = getBit v ((i + n) % v.dims) := by
  induction n with
  | zero =>
    intro i hi
    simp [Nat.mod_eq_of_lt hi]
  | succ n ih =>
    intro i hi
    rw [Function.iterate_succ_apply']
    have hwf := Permute_iterate_WF h n
    have hdims := Permute_iterate_dims v n
    rw [getBit_Permute hwf (by rw [hdims]; exact hi), hdims]
    have h1 : (i + 1) % v.dims < v.dims :=
      Nat.mod_lt _ (Nat.lt_of_le_of_lt (Nat.zero_le _) hi)
    rw [ih _ h1]
    congr 1
    rw [Nat.mod_add_mod]
    congr 1
    omega

theorem Permute_iterate_id {v : Vector} (h : WF v) :
    Permute^[v.dims] v = v := by
  apply Vector.ext_bits (Permute_iterate_WF h v.dims) h
    (Permute_iterate_dims v v.dims)
  intro i hi
  rw [Permute_iterate_dims] at hi
  rw [getBit_Permute_iterate h v.dims i hi, Nat.add_mod_right,
    Nat.mod_eq_of_lt hi]

end hdc

/-! ## Bundle lemmas -/

namespace hdc

theorem bundleCore_dims (dims thr : Nat) (vecs : List Vector) :
    (bundleCore dims thr vecs).dims = dims := rfl

theorem Bundle_cons_eq_some {v : Vector} {rest : List Vector}
    (hdims : ∀ u ∈ rest, u.dims = v.dims) :
    Bundle (v :: rest) =
      some (bundleCore v.dims ((v :: rest).length / 2) (v :: rest)) := by
  have hred : Bundle (v :: rest) = if ∀ u ∈ rest, u.dims = v.dims then
      some (bundleCore v.dims ((v :: rest).length / 2) (v :: rest))
    else none := rfl
  rw [hred, if_pos hdims]

theorem bitCount_single (v : Vector) (i : Nat) :
    bitCount [v] i = if getBit v i then 1 else 0 := by
  simp [bitCount, List.countP_cons, List.countP_nil]

theorem bundle_single {v : Vector} (h : WF v) : Bundle [v] = some v := by
  rw [Bundle_cons_eq_some (by simp)]
  congr 1
  apply Vector.ext_bits (bundleCore_WF _ _ _ h.1) h rfl
  intro i hi
  rw [bundleCore_dims] at hi
  rw [getBit_bundleCore _ _ _ hi, bitCount_single]
  by_cases hb : getBit v i <;> simp [hb]

theorem bundle_triple {v : Vector} (h : WF v) : Bundle [v, v, v] = some v := by
  rw [Bundle_cons_eq_some (by simp)]
  congr 1
  apply Vector.ext_bits (bundleCore_WF _ _ _ h.1) h rfl
  intro i hi
  rw [bundleCore_dims] at hi
  rw [getBit_bundleCore _ _ _ hi]
  have hc : bitCount [v, v, v] i = if getBit v i then 3 else 0 := by
    by_cases hb : getBit v i <;>
      simp [bitCount, List.countP_cons, List.countP_nil, hb]
  rw [hc]
  by_cases hb : getBit v i <;> simp [hb]

theorem getD_zipWith_and (l₁ l₂ : List Nat) (h : l₁.length = l₂.length)
    (j : Nat) :
    (List.zipWith (fun x y => x &&& y) l₁ l₂).getD j 0 =
      (l₁.getD j 0) &&& (l₂.getD j 0) := by
  by_cases hj : j < l₁.length
  · rw [List.getD_eq_getElem?_getD, List.getElem?_eq_getElem
      (by simp [List.length_zipWith]; omega)]
    rw [List.getD_eq_getElem?_getD, List.getElem?_eq_getElem hj]
    rw [List.getD_eq_getElem?_getD, List.getElem?_eq_getElem (h ▸ hj)]
    simp
  · have h₁ : l₁.length ≤ j := Nat.le_of_not_lt hj
    rw [List.getD_eq_getElem?_getD, List.getElem?_eq_none
      (by simp [List.length_zipWith]; omega)]
    rw [List.getD_eq_getElem?_getD, List.getElem?_eq_none (by simpa using h₁)]
    rw [List.getD_eq_getElem?_getD, List.getElem?_eq_none (by omega)]
    rfl

theorem and_vector_WF {a b : Vector} (ha : WF a) (hb : WF b)
    (hdim : a.dims = b.dims) :
    WF ⟨a.dims, List.zipWith (fun x y => x &&& y) a.data b.data⟩ := by
  have hlen : a.data.length = b.data.length := by
    rw [ha.2.1, hb.2.1, hdim]
  have hlz : (List.zipWith (fun x y => x &&& y) a.data b.data).length =
      a.data.length := by
    simp [List.length_zipWith, hlen]
  refine ⟨ha.1, by simpa [hlz] using ha.2.1, ?_, ?_⟩
  · intro w hw
    rw [List.mem_iff_getElem] at hw
    obtain ⟨k, hk, rfl⟩ := hw
    rw [List.getElem_zipWith]
    have hk' : k < a.data.length := by
      simpa [List.length_zipWith, hlen] using hk
    calc a.data[k] &&& b.data[k] ≤ a.data[k] := Nat.and_le_left
      _ < 2 ^ 64 := ha.2.2.1 _ (List.getElem_mem hk')
  · show (List.zipWith _ a.data b.data).getD
      ((List.zipWith _ a.data b.data).length - 1) 0 < _
    rw [hlz, getD_zipWith_and _ _ hlen]
    calc a.data.getD (a.data.length - 1) 0 &&& b.data.getD (a.data.length - 1) 0
        ≤ a.data.getD (a.data.length - 1) 0 := Nat.and_le_left
      _ < 2 ^ lastBits a.dims := ha.2.2.2

theorem getBit_and_vector {a b : Vector} (hlen : a.data.length = b.data.length)
    (i : Nat) :
    getBit ⟨a.dims, List.zipWith (fun x y => x &&& y) a.data b.data⟩ i =
      (getBit a i && getBit b i) := by
  unfold getBit
  simp only
  rw [getD_zipWith_and _ _ hlen, Nat.testBit_land]

theorem bundle_pair {a b : Vector} (ha : WF a) (hb : WF b)
    (hdim : b.dims = a.dims) :
    Bundle [a, b] =
      some ⟨a.dims, List.zipWith (fun x y => x &&& y) a.data b.data⟩ := by
  rw [Bundle_cons_eq_some (by simpa using hdim)]
  congr 1
  have hlen : a.data.length = b.data.length := by
    rw [ha.2.1, hb.2.1, hdim]
  apply Vector.ext_bits (bundleCore_WF _ _ _ ha.1)
    (and_vector_WF ha hb hdim.symm) rfl
  intro i hi
  rw [bundleCore_dims] at hi
  rw [getBit_bundleCore _ _ _ hi, getBit_and_vector hlen]
  have hc : bitCount [a, b] i =
      (if getBit a i then 1 else 0) + (if getBit b i then 1 else 0) := by
    by_cases hga : getBit a i <;> by_cases hgb : getBit b i <;>
      simp [bitCount, List.countP_cons, List.countP_nil, hga, hgb]
  rw [hc]
  by_cases hga : getBit a i <;> by_cases hgb : getBit b i <;>
    simp [hga, hgb]

/-! ## Similarity lemmas -/

theorem zipWith_replicate_zero (f : Nat → Nat → Nat) :
    ∀ (l : List Nat) (n : Nat), l.length = n →
      List.zipWith f (List.replicate n 0) l = l.map (f 0)
  | [], n, _ => by simp
  | x :: xs, n, h => by
    cases n with
    | zero => simp at h
    | succ m =>
      simp only [List.replicate_succ, List.zipWith_cons_cons, List.map_cons]
      rw [zipWith_replicate_zero f xs m (by simpa using h)]

theorem similarity_zero_left {D : Nat} {v : Vector}
    (hlen : v.data.length = numWords D) :
    Similarity (New D) v = 1 - (popTotal v : ℚ) / (D : ℚ) := by
  unfold Similarity popTotal New
  simp only
  rw [zipWith_replicate_zero _ v.data (numWords D) hlen]
  simp [Nat.zero_xor]

end hdc

/-! ## Scan characterization -/

namespace cache

theorem scanAux_eq_scanSims {V : Type} (t : ℚ) (q : hdc.Vector) :
    ∀ (es : List (Entry V)) (k : Nat) (bi : Option Nat) (bs : ℚ),
      scanAux t q es k bi bs =
        scanSims t (es.map (fun e => hdc.Similarity q e.vec)) k (bi, bs)
  | [], _, _, _ => rfl
  | e :: rest, k, bi, bs => by
    simp only [scanAux, scanSims, List.map_cons]
    split <;> exact scanAux_eq_scanSims t q rest (k + 1) _ _

theorem scanSims_go (t : ℚ) (ht : 0 < t) (sims : List ℚ) :
    ∀ (rest : List ℚ) (k : Nat) (acc : Option Nat × ℚ),
      sims.drop k = rest → k ≤ sims.length →
      ScanAcc t sims k acc →
      ScanAcc t sims sims.length (scanSims t rest k acc)
  | [], k, acc, hdrop, hk, hacc => by
    have hlen : sims.length ≤ k := by
      have h0 := congrArg List.length hdrop
      simp at h0
      omega
    have hkeq : k = sims.length := by omega
    subst hkeq
    exact hacc
  | s :: rest, k, acc, hdrop, hk, hacc => by
    have hk' : k < sims.length := by
      have := congrArg List.length hdrop
      simp at this
      omega
    have hs : sims.getD k 0 = s := by
      have h1 : sims.getD k 0 = (sims.drop k).getD 0 0 := by
        rw [List.getD_eq_getElem?_getD, List.getD_eq_getElem?_getD,
          List.getElem?_drop, Nat.add_zero]
      rw [h1, hdrop]
      rfl
    have hdrop' : sims.drop (k + 1) = rest := by
      have h1 : sims.drop (k + 1) = (sims.drop k).drop 1 := by
        rw [← List.drop_drop]
      rw [h1, hdrop]
      rfl
    show ScanAcc t sims sims.length
      (if t ≤ s ∧ acc.2 < s then scanSims t rest (k + 1) (some k, s)
        else scanSims t rest (k + 1) acc)
    by_cases hcond : t ≤ s ∧ acc.2 < s
    · rw [if_pos hcond]
      apply scanSims_go t ht sims rest (k + 1) _ hdrop' (by omega)
      show k < k + 1 ∧ s = sims.getD k 0 ∧ t ≤ s ∧ _ ∧ _
      refine ⟨by omega, hs.symm, hcond.1, ?_, ?_⟩
      · intro j hj htj
        obtain ⟨bi, bs⟩ := acc
        cases bi with
        | none =>
          exact absurd htj (not_le.mpr (hacc.2 j (by omega)))
        | some i =>
          obtain ⟨hik, hbs, htb, hbefore, hafter⟩ := hacc
          rcases Nat.lt_trichotomy j i with hji | hji | hji
          · exact lt_trans (hbefore j hji htj) (hbs ▸ hcond.2)
          · subst hji
            exact hbs ▸ hcond.2
          · exact lt_of_le_of_lt (hafter j hji (by omega) htj) (hbs ▸ hcond.2)
      · intro j hj hj' _
        omega
    · rw [if_neg hcond]
      apply scanSims_go t ht sims rest (k + 1) _ hdrop' (by omega)
      obtain ⟨bi, bs⟩ := acc
      cases bi with
      | none =>
        obtain ⟨hbs, hall⟩ := hacc
        refine ⟨hbs, ?_⟩
        intro j hj
        rcases Nat.lt_or_ge j k with hjk | hjk
        · exact hall j hjk
        · have hjeq : j = k := by omega
          subst hjeq
          rw [hs]
          by_contra hnot
          push_neg at hnot
          apply hcond
          refine ⟨hnot, ?_⟩
          show bs < s
          rw [hbs]
          linarith
      | some i =>
        obtain ⟨hik, hbs, htb, hbefore, hafter⟩ := hacc
        refine ⟨by omega, hbs, htb, hbefore, ?_⟩
        intro j hji hj htj
        rcases Nat.lt_or_ge j k with hjk | hjk
        · exact hafter j hji hjk htj
        · have hjeq : j = k := by omega
          subst hjeq
          rw [hs] at htj
          show sims.getD j 0 ≤ bs
          rw [hs]
          by_contra hnot
          push_neg at hnot
          exact hcond ⟨htj, hnot⟩

theorem scanLocked_spec {V : Type} (t : ℚ) (q : hdc.Vector) (ht : 0 < t)
    (es : List (Entry V)) :
    ScanAcc t (es.map (fun e => hdc.Similarity q e.vec))
      (es.map (fun e => hdc.Similarity q e.vec)).length
      (scanLocked t q es) := by
  unfold scanLocked
  rw [scanAux_eq_scanSims]
  exact scanSims_go t ht _ _ 0 (none, 0) rfl (Nat.zero_le _) ⟨rfl, by omega⟩

end cache

namespace cache

theorem Get_eq_of_scan_none {V : Type} (enc : String → hdc.Vector)
    (c : Cache V) (key : String) (bs : ℚ)
    (h : scanLocked c.threshold (enc key) c.entries = (none, bs)) :
    Cache.Get enc c key = (none, false, 0, {c with misses := c.misses + 1}) := by
  unfold Cache.Get
  simp only
  rw [h]

theorem Get_eq_of_scan_some {V : Type} (enc : String → hdc.Vector)
    (c : Cache V) (key : String) (i : Nat) (s : ℚ) (e : Entry V)
    (h : scanLocked c.threshold (enc key) c.entries = (some i, s))
    (he : c.entries[i]? = some e) :
    Cache.Get enc c key = (some e.value, true, s,
      { c with
        entries := moveToFront c.entries i
        hits := c.hits + 1
        simSum := c.simSum + s }) := by
  unfold Cache.Get
  simp only
  rw [h]
  simp only [he]

end cache

/-- C1: `Get` scans all stored entries; when some entry is at or above the
threshold it returns (value, hit=true, similarity) of the entry whose
similarity is ≥ threshold and strictly greater than every other
candidate's (ties to the entry earlier in MRU order), moves that entry to
the MRU front, increments `hits` and adds the similarity to `simSum`;
otherwise it increments `misses` and returns (none, false, 0) leaving the
entry order unchanged. The hypothesis `0 < threshold` is enforced by the
cache constructor. -/
theorem cache_get_best_match {V : Type} (enc : String → hdc.Vector)
    (c : cache.Cache V) (key : String) (ht : 0 < c.threshold) :
    (∃ i e, cache.BestAt c.threshold
        (c.entries.map (fun e' => hdc.Similarity (enc key) e'.vec)) i
        ((c.entries.map (fun e' => hdc.Similarity (enc key) e'.vec)).getD i 0) ∧
      c.entries[i]? = some e ∧
      cache.Cache.Get enc c key = (some e.value, true,
        (c.entries.map (fun e' => hdc.Similarity (enc key) e'.vec)).getD i 0,
        { c with
          entries := cache.moveToFront c.entries i
          hits := c.hits + 1
          simSum := c.simSum +
            (c.entries.map (fun e' => hdc.Similarity (enc key) e'.vec)).getD i 0 })) ∨
    ((∀ j, j < c.entries.length →
        (c.entries.map (fun e' => hdc.Similarity (enc key) e'.vec)).getD j 0
          < c.threshold) ∧
      cache.Cache.Get enc c key = (none, false, 0,
        {c with misses := c.misses + 1})) := by
  have hspec := cache.scanLocked_spec c.threshold (enc key) ht c.entries
  rcases hscan : cache.scanLocked c.threshold (enc key) c.entries with ⟨bi, bs⟩
  rw [hscan] at hspec
  cases bi with
  | none =>
    right
    obtain ⟨hbs, hall⟩ := hspec
    refine ⟨?_, cache.Get_eq_of_scan_none enc c key bs hscan⟩
    intro j hj
    exact hall j (by simpa using hj)
  | some i =>
    left
    obtain ⟨hik, hbs, htb, hbefore, hafter⟩ := hspec
    have hilen : i < c.entries.length := by simpa using hik
    refine ⟨i, c.entries[i], ⟨by simpa using hik, rfl, hbs ▸ htb, ?_, ?_⟩,
      List.getElem?_eq_getElem hilen, ?_⟩
    · intro j hj htj
      have := hbefore j hj htj
      rw [hbs] at this
      exact this
    · intro j hji hj htj
      have := hafter j hji hj htj
      rw [hbs] at this
      exact this
    · rw [hbs] at hscan
      exact cache.Get_eq_of_scan_some enc c key i _ _ hscan
        (List.getElem?_eq_getElem hilen)

/-- Witness for C1: a one-entry cache with threshold 1/2 where the query
hits with similarity 1; the hypothesis `0 < threshold` holds at 1/2. -/
theorem cache_get_best_match_witness :
    cache.Cache.Get (fun _ => (⟨1, [1]⟩ : hdc.Vector))
      (⟨[⟨"a", ⟨1, [1]⟩, 5, 0⟩], ["a"], 1/2, 4, 0, 0, 0, 0⟩ : cache.Cache Nat) "k"
      = (some 5, true, 1,
        ⟨[⟨"a", ⟨1, [1]⟩, 5, 0⟩], ["a"], 1/2, 4, 1, 0, 0, 1⟩) := by
  rcases cache_get_best_match (fun _ => (⟨1, [1]⟩ : hdc.Vector))
      (⟨[⟨"a", ⟨1, [1]⟩, 5, 0⟩], ["a"], 1/2, 4, 0, 0, 0, 0⟩ : cache.Cache Nat) "k"
      (by norm_num) with ⟨i, e, hbest, he, heq⟩ | ⟨hall, heq⟩
  · have hi : i < 1 := by simpa using hbest.1
    have hi0 : i = 0 := by omega
    subst hi0
    have he' : e = (⟨"a", ⟨1, [1]⟩, 5, 0⟩ : cache.Entry Nat) := by
      have : (([⟨"a", ⟨1, [1]⟩, 5, 0⟩] : List (cache.Entry Nat)))[0]?
          = some ⟨"a", ⟨1, [1]⟩, 5, 0⟩ := rfl
      rw [this] at he
      exact (Option.some.inj he).symm
    subst he'
    rw [heq]
    norm_num [cache.moveToFront, hdc.Similarity, hdc.popCount, hdc.popCountAux]
  · exfalso
    have h0 := hall 0 (by norm_num)
    norm_num [hdc.Similarity, hdc.popCount, hdc.popCountAux] at h0

namespace cache

theorem scanAux_none_of_all {V : Type} (t : ℚ) (q : hdc.Vector) :
    ∀ (es : List (Entry V)) (k : Nat) (bs : ℚ),
      (∀ e ∈ es, ¬(t ≤ hdc.Similarity q e.vec ∧ bs < hdc.Similarity q e.vec)) →
      scanAux t q es k none bs = (none, bs)
  | [], _, _, _ => rfl
  | e :: rest, k, bs, h => by
    simp only [scanAux]
    rw [if_neg (h e (by simp))]
    exact scanAux_none_of_all t q rest (k + 1) bs
      (fun e' he' => h e' (by simp [he']))

end cache

/-- C4 (amended): a `Get` whose key encodes to the zero vector misses
provided every stored entry's vector has population count strictly above
`(1 − threshold)·D`; the zero query's similarity to a stored vector `v`
is `1 − popcount(v)/D`, so a merely non-zero `v` does not guarantee a
miss. -/
theorem zero_query_miss {V : Type} (enc : String → hdc.Vector)
    (c : cache.Cache V) (key : String) (D : Nat) (hD : 0 < D)
    (henc : enc key = hdc.New D)
    (hent : ∀ e ∈ c.entries, e.vec.data.length = hdc.numWords D ∧
      (1 - c.threshold) * (D : ℚ) < (hdc.popTotal e.vec : ℚ)) :
    cache.Cache.Get enc c key =
      (none, false, 0, {c with misses := c.misses + 1}) := by
  apply cache.Get_eq_of_scan_none enc c key 0
  unfold cache.scanLocked
  apply cache.scanAux_none_of_all
  intro e he
  obtain ⟨hlen, hpc⟩ := hent e he
  rw [henc, hdc.similarity_zero_left hlen]
  have hD' : (0 : ℚ) < (D : ℚ) := by exact_mod_cast hD
  have hfrac : (1 - c.threshold) < (hdc.popTotal e.vec : ℚ) / (D : ℚ) :=
    (lt_div_iff hD').mpr hpc
  intro hcontra
  have := hcontra.1
  linarith

/-- Witness for C4's amended theorem: dimension 2, threshold 1/2, one
stored vector with both bits set (popcount 2 > (1 − 1/2)·2); the zero
query misses. -/
theorem zero_query_miss_witness :
    cache.Cache.Get (fun _ => hdc.New 2)
      (⟨[⟨"a", ⟨2, [3]⟩, 7, 0⟩], ["a"], 1/2, 4, 0, 0, 1, 0⟩ : cache.Cache Nat)
      "q" = (none, false, 0,
        ⟨[⟨"a", ⟨2, [3]⟩, 7, 0⟩], ["a"], 1/2, 4, 0, 1, 1, 0⟩) := by
  have h := zero_query_miss (fun _ => hdc.New 2)
    (⟨[⟨"a", ⟨2, [3]⟩, 7, 0⟩], ["a"], 1/2, 4, 0, 0, 1, 0⟩ : cache.Cache Nat)
    "q" 2 (by norm_num) rfl ?hent
  · exact h
  case hent =>
    intro e he
    have he' : e = (⟨"a", ⟨2, [3]⟩, 7, 0⟩ : cache.Entry Nat) := by
      simpa using he
    subst he'
    refine ⟨by decide, ?_⟩
    norm_num [hdc.popTotal, hdc.popCount, hdc.popCountAux]

/-- C4 counterexample: the claim as stated is false. With D = 2,
threshold 1/2 ∈ (0, 1], a stored non-zero vector with one bit set and a
key that encodes to the zero vector, `Get` is a hit (similarity
1 − 1/2 = 1/2 reaches the threshold). -/
theorem zero_query_hit_counterexample :
    ((fun k : String => if k = "a" then (⟨2, [1]⟩ : hdc.Vector)
        else hdc.New 2) "" = hdc.New 2) ∧
    (⟨2, [1]⟩ : hdc.Vector) ≠ hdc.New 2 ∧
    ((0 : ℚ) < 1/2 ∧ (1/2 : ℚ) ≤ 1) ∧
    (cache.Cache.Get
      (fun k : String => if k = "a" then (⟨2, [1]⟩ : hdc.Vector) else hdc.New 2)
      (⟨[⟨"a", ⟨2, [1]⟩, 7, 0⟩], ["a"], 1/2, 4, 0, 0, 1, 0⟩ : cache.Cache Nat)
      "").2.1 = true := by
  refine ⟨rfl, by decide, ⟨by norm_num, by norm_num⟩, ?_⟩
  have hne : ("" : String) ≠ "a" := by decide
  norm_num [cache.Cache.Get, cache.scanLocked, cache.scanAux, hne,
    hdc.Similarity, hdc.popCount, hdc.popCountAux, hdc.New, hdc.numWords]

/-- C7: `permute` is the cyclic right shift `out[i] = in[(i+1) mod D]`
(logical bit 0 moves to position D−1), and applying it exactly D times
restores the vector, for every well-formed vector, including dimensions
that are not multiples of 64. -/
theorem permute_cyclic {v : hdc.Vector} (h : hdc.WF v) :
    (∀ i, i < v.dims →
      hdc.getBit (hdc.Permute v) i = hdc.getBit v ((i + 1) % v.dims)) ∧
    hdc.Permute^[v.dims] v = v :=
  ⟨fun _ hi => hdc.getBit_Permute h hi, hdc.Permute_iterate_id h⟩

/-- Witness for C7: a two-word vector of dimension 65 (the last word is
only one bit wide). -/
theorem permute_cyclic_witness :
    (∀ i, i < (⟨65, [37, 1]⟩ : hdc.Vector).dims →
      hdc.getBit (hdc.Permute ⟨65, [37, 1]⟩) i =
        hdc.getBit (⟨65, [37, 1]⟩ : hdc.Vector)
          ((i + 1) % (⟨65, [37, 1]⟩ : hdc.Vector).dims)) ∧
    hdc.Permute^[(⟨65, [37, 1]⟩ : hdc.Vector).dims]
      (⟨65, [37, 1]⟩ : hdc.Vector) = ⟨65, [37, 1]⟩ :=
  permute_cyclic (by decide)

/-- C6: `Bundle` fails on an empty input and on disagreeing dimensions;
otherwise it returns the majority vote — bit i is set iff strictly more
than ⌊k/2⌋ inputs have bit i set (even ties yield 0) — and in particular
`bundle(v) = v` and `bundle(v,v,v) = v`. -/
theorem bundle_spec :
    hdc.Bundle ([] : List hdc.Vector) = none ∧
    (∀ (v : hdc.Vector) (vs : List hdc.Vector), (∃ u ∈ vs, u.dims ≠ v.dims) →
      hdc.Bundle (v :: vs) = none) ∧
    (∀ (v : hdc.Vector) (vs : List hdc.Vector), (∀ u ∈ vs, u.dims = v.dims) →
      ∃ w, hdc.Bundle (v :: vs) = some w ∧ w.dims = v.dims ∧
        ∀ i, i < v.dims →
          (hdc.getBit w i = true ↔
            (v :: vs).length / 2 < hdc.bitCount (v :: vs) i)) ∧
    (∀ v : hdc.Vector, hdc.WF v →
      hdc.Bundle [v] = some v ∧ hdc.Bundle [v, v, v] = some v) := by
  refine ⟨rfl, ?_, ?_, ?_⟩
  · intro v vs hne
    have hred : hdc.Bundle (v :: vs) = if ∀ u ∈ vs, u.dims = v.dims then
        some (hdc.bundleCore v.dims ((v :: vs).length / 2) (v :: vs))
      else none := rfl
    rw [hred, if_neg]
    intro hall
    obtain ⟨u, hu, hne'⟩ := hne
    exact hne' (hall u hu)
  · intro v vs hall
    refine ⟨_, hdc.Bundle_cons_eq_some hall, rfl, ?_⟩
    intro i hi
    rw [hdc.getBit_bundleCore _ _ _ hi]
    simp
  · intro v hv
    exact ⟨hdc.bundle_single hv, hdc.bundle_triple hv⟩

/-- Witness for C6: a dimension mismatch returns `none`; the identities
hold at a concrete well-formed vector. -/
theorem bundle_spec_witness :
    hdc.Bundle ((⟨2, [1]⟩ : hdc.Vector) :: [⟨3, [5]⟩]) = none ∧
    (hdc.Bundle [(⟨2, [1]⟩ : hdc.Vector)] = some ⟨2, [1]⟩ ∧
      hdc.Bundle [(⟨2, [1]⟩ : hdc.Vector), ⟨2, [1]⟩, ⟨2, [1]⟩] = some ⟨2, [1]⟩) :=
  ⟨bundle_spec.2.1 _ _ ⟨⟨3, [5]⟩, by decide, by decide⟩,
    bundle_spec.2.2.2 _ (by decide)⟩

/-- C10: with two equal-dimension inputs the majority threshold is
⌊2/2⌋ = 1, so `bundle(a, b)` is exactly the word-wise AND of `a` and `b`:
a result bit is set iff both inputs have it set. -/
theorem bundle_pair_and {a b : hdc.Vector} (ha : hdc.WF a) (hb : hdc.WF b)
    (hdim : b.dims = a.dims) :
    hdc.Bundle [a, b] =
      some ⟨a.dims, List.zipWith (fun x y => x &&& y) a.data b.data⟩ ∧
    ∀ i, i < a.dims →
      hdc.getBit (⟨a.dims, List.zipWith (fun x y => x &&& y) a.data b.data⟩ :
        hdc.Vector) i = (hdc.getBit a i && hdc.getBit b i) :=
  ⟨hdc.bundle_pair ha hb hdim,
    fun i _ => hdc.getBit_and_vector (by rw [ha.2.1, hb.2.1, hdim]) i⟩

/-- Witness for C10 at two concrete vectors of dimension 2. -/
theorem bundle_pair_and_witness :
    hdc.Bundle [(⟨2, [3]⟩ : hdc.Vector), ⟨2, [1]⟩] =
      some ⟨(⟨2, [3]⟩ : hdc.Vector).dims,
        List.zipWith (fun x y => x &&& y) [3] [1]⟩ ∧
    ∀ i, i < (⟨2, [3]⟩ : hdc.Vector).dims →
      hdc.getBit (⟨(⟨2, [3]⟩ : hdc.Vector).dims,
        List.zipWith (fun x y => x &&& y) [3] [1]⟩ : hdc.Vector) i =
        (hdc.getBit ⟨2, [3]⟩ i && hdc.getBit ⟨2, [1]⟩ i) :=
  bundle_pair_and (by decide) (by decide) (by decide)

/-- C3 (amended): on first access `symbolTable.get` computes, caches and
returns `Random(dims, mixGo seed c)` where
`mixGo s c = ((s XOR (c·2654435761 mod 2^64)) + 1) mod 2^64` — the `+ 1`
applies after the XOR, per Go operator precedence — and any two tables
with the same dimension and seed resolve every code point identically. -/
theorem symbol_first_access (g : Nat → Nat → Nat) (t : hdc.SymTable)
    (r : Nat) (h : t.table.lookup r = none) :
    (hdc.SymTable.get g t r).1 = hdc.Random g t.dims (hdc.mixGo t.seed r) ∧
    (hdc.SymTable.get g t r).2.table.lookup r =
      some (hdc.Random g t.dims (hdc.mixGo t.seed r)) ∧
    ∀ t' : hdc.SymTable, t'.dims = t.dims → t'.seed = t.seed →
      t'.table.lookup r = none →
      (hdc.SymTable.get g t' r).1 = (hdc.SymTable.get g t r).1 := by
  have hget : ∀ u : hdc.SymTable, u.table.lookup r = none →
      hdc.SymTable.get g u r = (hdc.Random g u.dims (hdc.mixGo u.seed r),
        ⟨u.dims, u.seed,
          (r, hdc.Random g u.dims (hdc.mixGo u.seed r)) :: u.table⟩) := by
    intro u hu
    unfold hdc.SymTable.get
    rw [hu]
  refine ⟨by rw [hget t h], ?_, ?_⟩
  · rw [hget t h]
    simp [List.lookup]
  · intro t' hd hs h'
    rw [hget t' h', hget t h, hd, hs]

/-- Witness for C3's amended theorem: a fresh table at dimension 2,
seed 5, code point 3. -/
theorem symbol_first_access_witness :
    (hdc.SymTable.get (fun s i => s + i) (⟨2, 5, []⟩ : hdc.SymTable) 3).1 =
      hdc.Random (fun s i => s + i) (⟨2, 5, []⟩ : hdc.SymTable).dims
        (hdc.mixGo (⟨2, 5, []⟩ : hdc.SymTable).seed 3) :=
  (symbol_first_access (fun s i => s + i) ⟨2, 5, []⟩ 3 rfl).1

/-- C3 counterexample: the claim's formula `s XOR (c·2654435761 + 1)`
disagrees with the code at seed 1, code point 0 (`mixGo 1 0 = 2` but
`mixSpec 1 0 = 0`), and with a stream that distinguishes seeds 2 and 0
at dimension 2 the cached symbol vector differs from
`random(D, mixSpec(seed, c))`. -/
theorem mix_formula_counterexample :
    hdc.mixGo 1 0 = 2 ∧ hdc.mixSpec 1 0 = 0 ∧
    (hdc.SymTable.get (fun s _ => s) (⟨2, 1, []⟩ : hdc.SymTable) 0).1 ≠
      hdc.Random (fun s _ => s) 2 (hdc.mixSpec 1 0) := by
  refine ⟨by decide, by decide, ?_⟩
  decide


/-! ## Set characterization -/

namespace cache

theorem findIdx?_zero_spec {α : Type _} (p : α → Bool) :
    ∀ (l : List α) (i : Nat), List.findIdx? p l = some i →
      (∃ a, l[i]? = some a ∧ p a = true) ∧
      ∀ j, j < i → ∃ b, l[j]? = some b ∧ p b = false
  | [], i, h => by simp [List.findIdx?_nil] at h
  | x :: xs, i, h => by
    rw [List.findIdx?_cons] at h
    by_cases hp : p x = true
    · rw [if_pos hp] at h
      cases h
      refine ⟨⟨x, by simp, hp⟩, fun j hj => absurd hj (by omega)⟩
    · rw [if_neg hp, List.findIdx?_succ] at h
      cases hrec : List.findIdx? p xs with
      | none => rw [hrec] at h; cases h
      | some i' =>
        rw [hrec] at h
        rw [show Option.map (fun i => i + 1) (some i') = some (i' + 1)
          from rfl] at h
        cases h
        obtain ⟨⟨a, ha, hpa⟩, hbefore⟩ := findIdx?_zero_spec p xs i' hrec
        refine ⟨⟨a, ?_, hpa⟩, ?_⟩
        · rw [List.getElem?_cons_succ]
          exact ha
        · intro j hj
          cases j with
          | zero =>
            refine ⟨x, by simp, ?_⟩
            simp only [Bool.not_eq_true] at hp
            exact hp
          | succ j' =>
            obtain ⟨b, hb, hpb⟩ := hbefore j' (by omega)
            refine ⟨b, ?_, hpb⟩
            rw [List.getElem?_cons_succ]
            exact hb

theorem findIdx?_ne_none_of_mem {α : Type _} {p : α → Bool} {l : List α}
    {a : α} (ha : a ∈ l) (hp : p a = true) :
    List.findIdx? p l ≠ none := by
  intro h
  rw [List.findIdx?_eq_none_iff] at h
  rw [h a ha] at hp
  cases hp

theorem eraseIdx_set {α : Type _} :
    ∀ (l : List α) (i : Nat) (a : α), (l.set i a).eraseIdx i = l.eraseIdx i
  | [], _, _ => rfl
  | _ :: _, 0, _ => rfl
  | x :: xs, i + 1, a => by
    rw [List.set_cons_succ, List.eraseIdx_cons_succ, List.eraseIdx_cons_succ,
      eraseIdx_set xs i a]

theorem moveToFront_set {α : Type _} (l : List α) (i : Nat) (a : α)
    (hi : i < l.length) :
    moveToFront (l.set i a) i = a :: l.eraseIdx i := by
  unfold moveToFront
  rw [List.getElem?_set_self hi, eraseIdx_set]

theorem Set_eq_of_findIdx {V : Type} (enc : String → hdc.Vector)
    (c : Cache V) (key : String) (v : V) (now : Nat) (i : Nat)
    (hkey : key ∈ c.index)
    (hf : c.entries.findIdx? (fun e => decide (e.key = key)) = some i) :
    Cache.Set enc c key v now =
      { c with
        entries := moveToFront (c.entries.set i ⟨key, enc key, v, now⟩) i
        sets := c.sets + 1 } := by
  unfold Cache.Set
  simp only
  rw [if_pos hkey, hf]

theorem evictLocked_eq {V : Type} (c : Cache V) {last : Entry V}
    (hlast : c.entries.getLast? = some last) :
    Cache.evictLocked c =
      { c with
        entries := c.entries.dropLast
        index := c.index.erase last.key } := by
  unfold Cache.evictLocked
  rw [hlast]

theorem Set_eq_of_absent_evict {V : Type} (enc : String → hdc.Vector)
    (c : Cache V) (key : String) (v : V) (now : Nat) {last : Entry V}
    (hkey : key ∉ c.index) (hlen : c.capacity ≤ c.entries.length)
    (hlast : c.entries.getLast? = some last) :
    Cache.Set enc c key v now =
      { c with
        entries := ⟨key, enc key, v, now⟩ :: c.entries.dropLast
        index := key :: c.index.erase last.key
        sets := c.sets + 1 } := by
  unfold Cache.Set
  simp only
  rw [if_neg hkey, if_pos hlen,
    evictLocked_eq { c with sets := c.sets + 1 } (by exact hlast)]

theorem Set_eq_of_absent_room {V : Type} (enc : String → hdc.Vector)
    (c : Cache V) (key : String) (v : V) (now : Nat)
    (hkey : key ∉ c.index) (hlen : ¬ c.capacity ≤ c.entries.length) :
    Cache.Set enc c key v now =
      { c with
        entries := ⟨key, enc key, v, now⟩ :: c.entries
        index := key :: c.index
        sets := c.sets + 1 } := by
  unfold Cache.Set
  simp only
  rw [if_neg hkey, if_neg hlen]

end cache

/-- C2: `Set` on a byte-identical present key replaces that entry's value,
vector and timestamp, moves it to the MRU front, increments `sets`, and
leaves the entry count unchanged; on an absent key at capacity it first
evicts the LRU-end entry (removing its key from the index), then pushes
the new entry at the MRU front and registers its key; on an absent key
below capacity it simply inserts. The index/entries agreement hypothesis
and `capacity ≥ 1` hold for every reachable cache. -/
theorem cache_set_spec {V : Type} (enc : String → hdc.Vector)
    (c : cache.Cache V) (key : String) (v : V) (now : Nat)
    (hcap : 1 ≤ c.capacity)
    (hsync : key ∈ c.index ↔ key ∈ c.entries.map cache.Entry.key) :
    (key ∈ c.index →
      ∃ i e, i < c.entries.length ∧ c.entries[i]? = some e ∧ e.key = key ∧
        (∀ j ej, j < i → c.entries[j]? = some ej → ej.key ≠ key) ∧
        cache.Cache.Set enc c key v now =
          { c with
            entries := ⟨key, enc key, v, now⟩ :: c.entries.eraseIdx i
            sets := c.sets + 1 } ∧
        (cache.Cache.Set enc c key v now).entries.length =
          c.entries.length) ∧
    (key ∉ c.index → c.capacity ≤ c.entries.length →
      ∃ last, c.entries.getLast? = some last ∧
        cache.Cache.Set enc c key v now =
          { c with
            entries := ⟨key, enc key, v, now⟩ :: c.entries.dropLast
            index := key :: c.index.erase last.key
            sets := c.sets + 1 } ∧
        (cache.Cache.Set enc c key v now).entries.length =
          c.entries.length) ∧
    (key ∉ c.index → c.entries.length < c.capacity →
      cache.Cache.Set enc c key v now =
        { c with
          entries := ⟨key, enc key, v, now⟩ :: c.entries
          index := key :: c.index
          sets := c.sets + 1 }) := by
  refine ⟨?_, ?_, ?_⟩
  · intro hkey
    have hmem : key ∈ c.entries.map cache.Entry.key := hsync.mp hkey
    obtain ⟨e₀, he₀, hke₀⟩ := List.mem_map.mp hmem
    have hfind : c.entries.findIdx? (fun e => decide (e.key = key)) ≠ none :=
      cache.findIdx?_ne_none_of_mem he₀ (by simp [hke₀])
    cases hf : c.entries.findIdx? (fun e => decide (e.key = key)) with
    | none => exact absurd hf hfind
    | some i =>
      obtain ⟨⟨e, he, hpe⟩, hbefore⟩ := cache.findIdx?_zero_spec _ _ _ hf
      have hi : i < c.entries.length := by
        by_contra hni
        rw [List.getElem?_eq_none (by omega)] at he
        cases he
      have hek : e.key = key := by simpa using hpe
      have hset := cache.Set_eq_of_findIdx enc c key v now i hkey hf
      rw [cache.moveToFront_set _ _ _ hi] at hset
      refine ⟨i, e, hi, he, hek, ?_, hset, ?_⟩
      · intro j ej hj hej
        obtain ⟨b, hb, hpb⟩ := hbefore j hj
        rw [hb] at hej
        cases hej
        simpa using hpb
      · rw [hset]
        simp only [List.length_cons, List.length_eraseIdx, if_pos hi]
        omega
  · intro hkey hlen
    have hne : c.entries ≠ [] := by
      intro hnil
      rw [hnil] at hlen
      simp at hlen
      omega
    obtain ⟨last, hlast⟩ : ∃ last, c.entries.getLast? = some last :=
      ⟨c.entries.getLast hne, List.getLast?_eq_getLast _ hne⟩
    have hset := cache.Set_eq_of_absent_evict enc c key v now hkey hlen hlast
    refine ⟨last, hlast, hset, ?_⟩
    rw [hset]
    simp only [List.length_cons, List.length_dropLast]
    omega
  · intro hkey hlen
    exact cache.Set_eq_of_absent_room enc c key v now hkey (by omega)

/-- Witness for C2: capacity-1 cache holding key "a"; setting the absent
key "b" evicts "a" and keeps the entry count at 1 while bumping `sets`
to 2. -/
theorem cache_set_spec_witness :
    (cache.Cache.Set (fun _ => (⟨1, [1]⟩ : hdc.Vector))
      (⟨[⟨"a", ⟨1, [1]⟩, 5, 0⟩], ["a"], 1/2, 1, 0, 0, 1, 0⟩ : cache.Cache Nat)
      "b" 9 3).entries.length = 1 ∧
    (cache.Cache.Set (fun _ => (⟨1, [1]⟩ : hdc.Vector))
      (⟨[⟨"a", ⟨1, [1]⟩, 5, 0⟩], ["a"], 1/2, 1, 0, 0, 1, 0⟩ : cache.Cache Nat)
      "b" 9 3).sets = 2 := by
  rcases (cache_set_spec (fun _ => (⟨1, [1]⟩ : hdc.Vector))
      (⟨[⟨"a", ⟨1, [1]⟩, 5, 0⟩], ["a"], 1/2, 1, 0, 0, 1, 0⟩ : cache.Cache Nat)
      "b" 9 3 (by norm_num) (by decide)).2.1 (by decide) (by norm_num)
    with ⟨last, hlast, hset, hlen⟩
  constructor
  · simpa using hlen
  · rw [hset]

/-! ## Encoder: well-formedness and pooled/pure agreement -/

namespace hdc

theorem sym_WF (g : Nat → Nat → Nat) {dims : Nat} (seed : Nat) (r : Char)
    (hd : 0 < dims) : WF (sym g dims seed r) :=
  Random_WF g _ hd

theorem sym_dims (g : Nat → Nat → Nat) (dims seed : Nat) (r : Char) :
    (sym g dims seed r).dims = dims := rfl

theorem vectorFromBuf_data_eq {D : Nat} {v : Vector} (h : v.dims = D) :
    PooledRev.vectorFromBuf D v.data = v := by
  obtain ⟨vd, vdata⟩ := v
  cases h
  rfl

theorem bundleU_cons {v : Vector} {rest : List Vector}
    (hdims : ∀ u ∈ rest, u.dims = v.dims) (D : Nat) :
    PureRev.bundleU D (v :: rest) =
      bundleCore v.dims ((v :: rest).length / 2) (v :: rest) := by
  unfold PureRev.bundleU
  rw [Bundle_cons_eq_some hdims]
  rfl

theorem bundlePooled_eq_bundleU {D : Nat} {vecs : List Vector}
    (hne : vecs ≠ []) (hv : ∀ v ∈ vecs, v.dims = D) :
    PooledRev.bundlePooled D vecs = PureRev.bundleU D vecs := by
  cases vecs with
  | nil => exact absurd rfl hne
  | cons v rest =>
    have hvD : v.dims = D := hv v (by simp)
    have hdims : ∀ u ∈ rest, u.dims = v.dims := fun u hu => by
      rw [hv u (by simp [hu]), hvD]
    rw [bundleU_cons hdims, PooledRev.bundlePooled, hvD]

theorem bundleU_WF {D : Nat} (hD : 0 < D) {vecs : List Vector}
    (hv : ∀ v ∈ vecs, v.dims = D) :
    WF (PureRev.bundleU D vecs) ∧ (PureRev.bundleU D vecs).dims = D := by
  cases vecs with
  | nil => exact ⟨New_WF hD, rfl⟩
  | cons v rest =>
    have hvD : v.dims = D := hv v (by simp)
    have hdims : ∀ u ∈ rest, u.dims = v.dims := fun u hu => by
      rw [hv u (by simp [hu]), hvD]
    rw [bundleU_cons hdims]
    exact ⟨bundleCore_WF _ _ _ (hvD ▸ hD), hvD⟩

theorem bundleU_single {D : Nat} {v : Vector} (h : WF v) :
    PureRev.bundleU D [v] = v := by
  unfold PureRev.bundleU
  rw [bundle_single h]
  rfl

theorem encodeWindowGo_eq (g : Nat → Nat → Nat) (D seed : Nat) :
    ∀ (runes : List Char) (i : Nat) (acc : Vector), acc.dims = D →
      PooledRev.encodeWindowGo g D seed runes i acc =
        PureRev.encodeWindowGo g D seed runes i acc
  | [], _, _, _ => rfl
  | r :: rest, i, acc, hacc => by
    simp only [PooledRev.encodeWindowGo, PureRev.encodeWindowGo]
    have heq : PooledRev.vectorFromBuf D (List.zipWith (fun x y => x ^^^ y)
        acc.data (Permute^[i] (sym g D seed r)).data) =
        Bind acc (Permute^[i] (sym g D seed r)) := by
      unfold PooledRev.vectorFromBuf Bind
      rw [hacc]
    rw [heq]
    exact encodeWindowGo_eq g D seed rest (i + 1) _ (by rw [Bind_dims, hacc])

theorem encodeWindowGo_WF (g : Nat → Nat → Nat) {D : Nat} (seed : Nat)
    (hD : 0 < D) :
    ∀ (runes : List Char) (i : Nat) (acc : Vector),
      WF acc → acc.dims = D →
      WF (PureRev.encodeWindowGo g D seed runes i acc) ∧
        (PureRev.encodeWindowGo g D seed runes i acc).dims = D
  | [], _, _, hacc, hdims => ⟨hacc, hdims⟩
  | r :: rest, i, acc, hacc, hdims => by
    simp only [PureRev.encodeWindowGo]
    have hperm : WF (Permute^[i] (sym g D seed r)) :=
      Permute_iterate_WF (sym_WF g seed r hD) i
    have hpermd : (Permute^[i] (sym g D seed r)).dims = D :=
      Permute_iterate_dims _ i
    exact encodeWindowGo_WF g seed hD rest (i + 1) _
      (Bind_WF hacc hperm (by rw [hdims, hpermd]))
      (by rw [Bind_dims, hdims])

theorem encodeWindow_eq (g : Nat → Nat → Nat) (D seed : Nat)
    (runes : List Char) :
    PooledRev.encodeWindow g D seed runes =
      PureRev.encodeWindow g D seed runes := by
  cases runes with
  | nil => rfl
  | cons r0 rest =>
    simp only [PooledRev.encodeWindow, PureRev.encodeWindow]
    rw [vectorFromBuf_data_eq (sym_dims g D seed r0)]
    exact encodeWindowGo_eq g D seed rest 1 _ (sym_dims g D seed r0)

theorem encodeWindow_WF (g : Nat → Nat → Nat) {D : Nat} (seed : Nat)
    (hD : 0 < D) (runes : List Char) :
    WF (PureRev.encodeWindow g D seed runes) ∧
      (PureRev.encodeWindow g D seed runes).dims = D := by
  cases runes with
  | nil => exact ⟨New_WF hD, rfl⟩
  | cons r0 rest =>
    exact encodeWindowGo_WF g seed hD rest 1 _ (sym_WF g seed r0 hD)
      (sym_dims g D seed r0)

theorem encodeRunes_eq (h : Host) (cfg : Config) (hD : 0 < cfg.Dims)
    (runes : List Char) :
    PooledRev.encodeRunes h cfg runes = PureRev.encodeRunes h cfg runes := by
  unfold PooledRev.encodeRunes PureRev.encodeRunes
  by_cases hshort : runes.length < cfg.NGramSize
  · rw [if_pos hshort, if_pos hshort]
    by_cases hnil : runes.map (sym h.g cfg.Dims cfg.Seed) = []
    · rw [if_pos hnil, if_pos hnil]
    · rw [if_neg hnil, if_neg hnil]
      exact bundlePooled_eq_bundleU hnil (by
        intro v hv
        obtain ⟨r, _, rfl⟩ := List.mem_map.mp hv
        rfl)
  · rw [if_neg hshort, if_neg hshort]
    have hmapeq : (List.range (runes.length - cfg.NGramSize + 1)).map
        (fun i => PooledRev.encodeWindow h.g cfg.Dims cfg.Seed
          ((runes.drop i).take cfg.NGramSize)) =
        (List.range (runes.length - cfg.NGramSize + 1)).map
        (fun i => PureRev.encodeWindow h.g cfg.Dims cfg.Seed
          ((runes.drop i).take cfg.NGramSize)) := by
      apply List.map_congr_left
      intro i _
      exact encodeWindow_eq h.g cfg.Dims cfg.Seed _
    rw [hmapeq]
    apply bundlePooled_eq_bundleU
    · simp only [ne_eq, List.map_eq_nil_iff, List.range_eq_nil]
      omega
    · intro v hv
      obtain ⟨i, _, rfl⟩ := List.mem_map.mp hv
      exact (encodeWindow_WF h.g cfg.Seed hD _).2

theorem encodeRunes_WF (h : Host) (cfg : Config) (hD : 0 < cfg.Dims)
    (runes : List Char) :
    WF (PureRev.encodeRunes h cfg runes) ∧
      (PureRev.encodeRunes h cfg runes).dims = cfg.Dims := by
  unfold PureRev.encodeRunes
  by_cases hshort : runes.length < cfg.NGramSize
  · rw [if_pos hshort]
    by_cases hnil : runes.map (sym h.g cfg.Dims cfg.Seed) = []
    · rw [if_pos hnil]
      exact ⟨New_WF hD, rfl⟩
    · rw [if_neg hnil]
      exact bundleU_WF hD (by
        intro v hv
        obtain ⟨r, _, rfl⟩ := List.mem_map.mp hv
        rfl)
  · rw [if_neg hshort]
    exact bundleU_WF hD (by
      intro v hv
      obtain ⟨i, _, rfl⟩ := List.mem_map.mp hv
      exact (encodeWindow_WF h.g cfg.Seed hD _).2)

end hdc

namespace hdc

theorem chunkLoop_mem (S N : Nat) (encOne : List Char → Vector)
    (runes : List Char) (P : Vector → Prop)
    (hP : ∀ chunk, P (encOne chunk)) :
    ∀ (fuel start : Nat) (acc : List Vector), (∀ v ∈ acc, P v) →
      ∀ v ∈ chunkLoop S N encOne runes fuel start acc, P v
  | 0, _, _, hacc => hacc
  | fuel + 1, start, acc, hacc => by
    simp only [chunkLoop]
    split
    case isFalse => exact hacc
    case isTrue hstart =>
      have hacc' : ∀ v ∈ (if N ≤ ((runes.drop start).take
          (min (start + S) runes.length - start)).length ∨ acc = [] then
          acc ++ [encOne ((runes.drop start).take
            (min (start + S) runes.length - start))] else acc), P v := by
        split
        · intro v hv
          rcases List.mem_append.mp hv with hv | hv
          · exact hacc v hv
          · rw [List.mem_singleton.mp hv]
            exact hP _
        · exact hacc
      split
      · exact hacc'
      · exact chunkLoop_mem S N encOne runes P hP fuel _ _ hacc'

theorem combine_eq {D : Nat} (hD : 0 < D) (vecs : List Vector)
    (hv : ∀ v ∈ vecs, WF v ∧ v.dims = D) :
    (if vecs = [] then New D
      else if vecs.length = 1 then vecs.headD (New D)
      else PooledRev.bundlePooled D vecs) =
    (if vecs = [] then New D else PureRev.bundleU D vecs) := by
  cases vecs with
  | nil => simp
  | cons v rest =>
    cases rest with
    | nil =>
      have h1 : ¬([v] = ([] : List Vector)) := by simp
      rw [if_neg h1, if_neg h1, if_pos (by simp : ([v] : List Vector).length = 1)]
      show v = PureRev.bundleU D [v]
      exact (bundleU_single (hv v (by simp)).1).symm
    | cons u rest' =>
      have h1 : ¬(v :: u :: rest' = ([] : List Vector)) := by simp
      have h2 : ¬((v :: u :: rest').length = 1) := by simp
      rw [if_neg h1, if_neg h1, if_neg h2]
      exact bundlePooled_eq_bundleU (by simp) (fun x hx => (hv x hx).2)

theorem combineU_WF {D : Nat} (hD : 0 < D) (vecs : List Vector)
    (hv : ∀ v ∈ vecs, v.dims = D) :
    WF (if vecs = [] then New D else PureRev.bundleU D vecs) ∧
      (if vecs = [] then New D else PureRev.bundleU D vecs).dims = D := by
  split
  · exact ⟨New_WF hD, rfl⟩
  · exact bundleU_WF hD hv

theorem encodeChunked_eq (h : Host) (cfg : Config) (hD : 0 < cfg.Dims)
    (runes : List Char) :
    PooledRev.encodeChunked h cfg runes = PureRev.encodeChunked h cfg runes := by
  have hf : PooledRev.encodeRunes h cfg = PureRev.encodeRunes h cfg :=
    funext (encodeRunes_eq h cfg hD)
  unfold PooledRev.encodeChunked PureRev.encodeChunked
  rw [hf]
  exact combine_eq hD _
    (chunkLoop_mem _ _ _ _ _ (fun chunk => encodeRunes_WF h cfg hD chunk)
      _ _ _ (by simp))

theorem encodeChunked_WF (h : Host) (cfg : Config) (hD : 0 < cfg.Dims)
    (runes : List Char) :
    WF (PureRev.encodeChunked h cfg runes) ∧
      (PureRev.encodeChunked h cfg runes).dims = cfg.Dims := by
  unfold PureRev.encodeChunked
  apply combineU_WF hD
  intro v hv
  exact (chunkLoop_mem _ _ _ _ (fun v => WF v ∧ v.dims = cfg.Dims)
    (fun chunk => encodeRunes_WF h cfg hD chunk) _ _ _ (by simp) v hv).2

theorem Encode_WF (h : Host) (cfg : Config) (hD : 0 < cfg.Dims)
    (text : List Char) :
    WF (PureRev.Encode h cfg text) ∧
      (PureRev.Encode h cfg text).dims = cfg.Dims := by
  unfold PureRev.Encode
  split
  · exact ⟨New_WF hD, rfl⟩
  · apply combineU_WF hD
    intro v hv
    obtain ⟨s, _, rfl⟩ := List.mem_map.mp hv
    split
    · exact (encodeChunked_WF h cfg hD s).2
    · exact (encodeRunes_WF h cfg hD s).2

end hdc

/-- C5: for every input, every configuration with positive dimension, and
every realization of the host library functions and the random stream,
the pooled in-place encode revision returns a vector bit-identical
(word-for-word equal) to the one returned by the pure-functional revision
built from `Bundle`, `Bind` and `Permute`. -/
theorem encode_pooled_eq_pure (h : hdc.Host) (cfg : hdc.Config)
    (hD : 0 < cfg.Dims) (text : List Char) :
    hdc.PooledRev.Encode h cfg text = hdc.PureRev.Encode h cfg text := by
  unfold hdc.PooledRev.Encode hdc.PureRev.Encode
  split
  · rfl
  · have hmapeq : (hdc.segments h cfg.StripPunctuation text).map (fun s =>
        if cfg.LongTextThresh < s.length then hdc.PooledRev.encodeChunked h cfg s
        else hdc.PooledRev.encodeRunes h cfg s) =
        (hdc.segments h cfg.StripPunctuation text).map (fun s =>
        if cfg.LongTextThresh < s.length then hdc.PureRev.encodeChunked h cfg s
        else hdc.PureRev.encodeRunes h cfg s) := by
      apply List.map_congr_left
      intro s _
      split
      · exact hdc.encodeChunked_eq h cfg hD s
      · exact hdc.encodeRunes_eq h cfg hD s
    rw [hmapeq]
    apply hdc.combine_eq hD
    intro v hv
    obtain ⟨s, _, rfl⟩ := List.mem_map.mp hv
    split
    · exact hdc.encodeChunked_WF h cfg hD s
    · exact hdc.encodeRunes_WF h cfg hD s

/-- Witness for C5 at a concrete host (identity lowercasing, space/never
predicates, a simple stream), a concrete configuration and input. -/
theorem encode_pooled_eq_pure_witness :
    hdc.PooledRev.Encode
      ⟨id, (fun c => c = ' '), (fun _ => false), fun s i => s * 37 + i + 1⟩
      ⟨3, 2, false, 2, 2, 5⟩ ('a' :: 'b' :: 'c' :: []) =
    hdc.PureRev.Encode
      ⟨id, (fun c => c = ' '), (fun _ => false), fun s i => s * 37 + i + 1⟩
      ⟨3, 2, false, 2, 2, 5⟩ ('a' :: 'b' :: 'c' :: []) :=
  encode_pooled_eq_pure _ _ (by norm_num) _

namespace hdc

theorem getBit_bundleCore_pad (dims thr : Nat) (vecs : List Vector) {i : Nat}
    (hi : dims ≤ i) : getBit (bundleCore dims thr vecs) i = false := by
  unfold getBit bundleCore
  simp only
  rw [getD_map_range]
  by_cases hj : i / 64 < numWords dims
  · rw [if_pos hj, orBits_testBit]
    have hout : ¬ (64 * (i / 64) + i % 64 < dims) := by omega
    simp [hout]
  · rw [if_neg hj]
    simp

theorem Bundle_pad {vecs : List Vector} {w : Vector}
    (h : Bundle vecs = some w) {i : Nat} (hi : w.dims ≤ i) :
    getBit w i = false := by
  cases vecs with
  | nil => cases h
  | cons v rest =>
    have hred : Bundle (v :: rest) = if ∀ u ∈ rest, u.dims = v.dims then
        some (bundleCore v.dims ((v :: rest).length / 2) (v :: rest))
      else none := rfl
    rw [hred] at h
    split at h
    · cases h
      exact getBit_bundleCore_pad _ _ _ hi
    · cases h

end hdc

/-- C9: every vector returned by `New`, `FromWords`, `Clone`, `Permute`,
`Bundle`, `Bind`, `Random` and both `Encode` revisions has every bit at a
position at or beyond its dimension equal to zero (in particular all
padding bits of the final word are zero). Operand vectors are assumed
well-formed, as all constructors guarantee; `FromWords` word slices are
64-bit values. -/
theorem padding_invariant :
    (∀ dims i, dims ≤ i → hdc.getBit (hdc.New dims) i = false) ∧
    (∀ dims ws (v : hdc.Vector), hdc.FromWords dims ws = some v →
      (∀ w ∈ ws, w < 2 ^ 64) → ∀ i, dims ≤ i → hdc.getBit v i = false) ∧
    (∀ v : hdc.Vector, hdc.WF v → ∀ i, v.dims ≤ i →
      hdc.getBit (hdc.Clone v) i = false) ∧
    (∀ v : hdc.Vector, hdc.WF v → ∀ i, v.dims ≤ i →
      hdc.getBit (hdc.Permute v) i = false) ∧
    (∀ (vecs : List hdc.Vector) (w : hdc.Vector), hdc.Bundle vecs = some w →
      ∀ i, w.dims ≤ i → hdc.getBit w i = false) ∧
    (∀ a b : hdc.Vector, hdc.WF a → hdc.WF b → a.dims = b.dims →
      ∀ i, a.dims ≤ i → hdc.getBit (hdc.Bind a b) i = false) ∧
    (∀ (g : Nat → Nat → Nat) (dims seed : Nat), 0 < dims → ∀ i, dims ≤ i →
      hdc.getBit (hdc.Random g dims seed) i = false) ∧
    (∀ (h : hdc.Host) (cfg : hdc.Config), 0 < cfg.Dims →
      ∀ (text : List Char) (i : Nat), cfg.Dims ≤ i →
      hdc.getBit (hdc.PureRev.Encode h cfg text) i = false ∧
      hdc.getBit (hdc.PooledRev.Encode h cfg text) i = false) := by
  refine ⟨?_, ?_, ?_, ?_, fun vecs w hw i hi => hdc.Bundle_pad hw hi,
    ?_, ?_, ?_⟩
  · intro dims i _
    exact hdc.getBit_New dims i
  · intro dims ws v h hw i hi
    have hWF := hdc.FromWords_WF h hw
    have hdims : v.dims = dims := by
      unfold hdc.FromWords at h
      split at h
      · cases h; rfl
      · cases h
    exact hWF.getBit_pad (by omega)
  · intro v hv i hi
    exact hdc.WF.getBit_pad hv hi
  · intro v hv i hi
    exact (hdc.Permute_WF hv).getBit_pad hi
  · intro a b ha hb hdim i hi
    exact (hdc.Bind_WF ha hb hdim).getBit_pad hi
  · intro g dims seed hd i hi
    exact (hdc.Random_WF g seed hd).getBit_pad hi
  · intro h cfg hD text i hi
    have hWF := hdc.Encode_WF h cfg hD text
    refine ⟨hWF.1.getBit_pad (by rw [hWF.2]; exact hi), ?_⟩
    rw [encode_pooled_eq_pure h cfg hD text]
    exact hWF.1.getBit_pad (by rw [hWF.2]; exact hi)

/-- Witness for C9: padding holds for a concrete permuted 65-bit vector
and a concrete random vector, with the hypotheses discharged at those
inputs. -/
theorem padding_invariant_witness :
    hdc.getBit (hdc.Permute ⟨65, [37, 1]⟩) 70 = false ∧
    hdc.getBit (hdc.Random (fun s i => s + i) 65 9) 70 = false :=
  ⟨padding_invariant.2.2.2.1 ⟨65, [37, 1]⟩ (by decide) 70 (by norm_num),
    padding_invariant.2.2.2.2.2.2.1 (fun s i => s + i) 65 9 (by norm_num) 70
      (by norm_num)⟩

/-! ## Cache invariant machinery -/

namespace cache

theorem moveToFront_perm {α : Type _} :
    ∀ (l : List α) (i : Nat), i < l.length → List.Perm (moveToFront l i) l
  | [], i, h => by simp at h
  | a :: t, 0, _ => by
    unfold moveToFront
    simp
  | a :: t, i + 1, h => by
    have hi : i < t.length := by
      simp at h
      omega
    cases hb : t[i]? with
    | none =>
      rw [List.getElem?_eq_getElem hi] at hb
      cases hb
    | some b =>
      unfold moveToFront
      rw [List.getElem?_cons_succ, hb, List.eraseIdx_cons_succ]
      have ht : List.Perm (b :: t.eraseIdx i) t := by
        have hmt := moveToFront_perm t i hi
        unfold moveToFront at hmt
        rw [hb] at hmt
        exact hmt
      exact List.Perm.trans (List.Perm.swap a b _) (List.Perm.cons a ht)

theorem set_getElem?_self {α : Type _} (l : List α) (i : Nat) (a : α)
    (h : l[i]? = some a) : l.set i a = l := by
  have hi : i < l.length := by
    by_contra hni
    rw [List.getElem?_eq_none (by omega)] at h
    cases h
  apply List.ext_getElem (by simp)
  intro n h1 h2
  rw [List.getElem_set]
  split
  case isTrue he =>
    subst he
    rw [List.getElem?_eq_getElem hi] at h
    exact (Option.some.inj h).symm
  case isFalse => rfl

theorem erase_getLast_of_nodup {α : Type _} [DecidableEq α]
    {l : List α} {a : α} (hl : l.getLast? = some a) (hnd : l.Nodup) :
    l.erase a = l.dropLast := by
  have hne : l ≠ [] := by
    intro hnil
    rw [hnil] at hl
    cases hl
  have hsplit : l.dropLast ++ [l.getLast hne] = l :=
    List.dropLast_append_getLast hne
  have hga : l.getLast hne = a := by
    rw [List.getLast?_eq_getLast l hne] at hl
    exact Option.some.inj hl
  have hnotin : a ∉ l.dropLast := by
    intro hmem
    have hnd' : (l.dropLast ++ [l.getLast hne]).Nodup := by
      rw [hsplit]
      exact hnd
    rw [List.nodup_append] at hnd'
    exact hnd'.2.2 hmem (by rw [hga]; exact List.mem_singleton.mpr rfl)
  conv_lhs => rw [← hsplit]
  rw [List.erase_append_right _ hnotin, hga]
  simp

theorem map_eraseP_key {V : Type} (key : String) (l : List (Entry V)) :
    (l.eraseP (fun e => decide (e.key = key))).map Entry.key =
      (l.map Entry.key).erase key := by
  induction l with
  | nil => rfl
  | cons e rest ih =>
    by_cases hk : e.key = key
    · rw [List.eraseP_cons_of_pos (by simp [hk]), List.map_cons, hk,
        List.erase_cons_head]
    · rw [List.eraseP_cons_of_neg (by simp [hk]), List.map_cons,
        List.map_cons, List.erase_cons_tail (by simpa using hk), ih]

end cache

namespace cache

theorem Set_shape {V : Type} (enc : String → hdc.Vector) (c : Cache V)
    (key : String) (v : V) (now : Nat)
    (hsync : key ∈ c.index ↔ key ∈ c.entries.map Entry.key)
    (hcap : 1 ≤ c.capacity) (hlen : c.entries.length ≤ c.capacity) :
    (∃ i e, i < c.entries.length ∧ c.entries[i]? = some e ∧ e.key = key ∧
      Cache.Set enc c key v now =
        { c with
          entries := moveToFront (c.entries.set i ⟨key, enc key, v, now⟩) i
          sets := c.sets + 1 }) ∨
    (∃ last, key ∉ c.index ∧ c.entries.getLast? = some last ∧
      c.entries.length = c.capacity ∧
      Cache.Set enc c key v now =
        { c with
          entries := ⟨key, enc key, v, now⟩ :: c.entries.dropLast
          index := key :: c.index.erase last.key
          sets := c.sets + 1 }) ∨
    (key ∉ c.index ∧ c.entries.length < c.capacity ∧
      Cache.Set enc c key v now =
        { c with
          entries := ⟨key, enc key, v, now⟩ :: c.entries
          index := key :: c.index
          sets := c.sets + 1 }) := by
  by_cases hkey : key ∈ c.index
  · left
    have hmem : key ∈ c.entries.map Entry.key := hsync.mp hkey
    obtain ⟨e₀, he₀, hke₀⟩ := List.mem_map.mp hmem
    have hfind : c.entries.findIdx? (fun e => decide (e.key = key)) ≠ none :=
      findIdx?_ne_none_of_mem he₀ (by simp [hke₀])
    cases hf : c.entries.findIdx? (fun e => decide (e.key = key)) with
    | none => exact absurd hf hfind
    | some i =>
      obtain ⟨⟨e, he, hpe⟩, _⟩ := findIdx?_zero_spec _ _ _ hf
      have hi : i < c.entries.length := by
        by_contra hni
        rw [List.getElem?_eq_none (by omega)] at he
        cases he
      exact ⟨i, e, hi, he, by simpa using hpe,
        Set_eq_of_findIdx enc c key v now i hkey hf⟩
  · by_cases hfull : c.capacity ≤ c.entries.length
    · right; left
      have hne : c.entries ≠ [] := by
        intro hnil
        rw [hnil] at hfull
        simp at hfull
        omega
      obtain ⟨last, hlast⟩ : ∃ last, c.entries.getLast? = some last :=
        ⟨c.entries.getLast hne, List.getLast?_eq_getLast _ hne⟩
      exact ⟨last, hkey, hlast, by omega,
        Set_eq_of_absent_evict enc c key v now hkey hfull hlast⟩
    · right; right
      exact ⟨hkey, by omega, Set_eq_of_absent_room enc c key v now hkey hfull⟩

theorem Set_inv {V : Type} {D : Nat} (enc : String → hdc.Vector)
    (c : Cache V) (key : String) (v : V) (now : Nat)
    (henc : hdc.WF (enc key) ∧ (enc key).dims = D)
    (hcap : 1 ≤ c.capacity) (hInv : Inv D c.capacity c) :
    Inv D c.capacity (Cache.Set enc c key v now) ∧
    (Cache.Set enc c key v now).capacity = c.capacity ∧
    (Cache.Set enc c key v now).threshold = c.threshold ∧
    (Cache.Set enc c key v now).hits = c.hits ∧
    (Cache.Set enc c key v now).misses = c.misses ∧
    (Cache.Set enc c key v now).sets = c.sets + 1 ∧
    (Cache.Set enc c key v now).simSum = c.simSum := by
  obtain ⟨hnd, hperm, hlen, hwf⟩ := hInv
  have hsync : key ∈ c.index ↔ key ∈ c.entries.map Entry.key := hperm.mem_iff
  rcases Set_shape enc c key v now hsync hcap hlen with
    ⟨i, e, hi, he, hek, hset⟩ | ⟨last, hkey, hlast, hlencap, hset⟩ |
    ⟨hkey, hroom, hset⟩
  · rw [hset]
    have hperm' : List.Perm (moveToFront
        (c.entries.set i ⟨key, enc key, v, now⟩) i)
        (c.entries.set i ⟨key, enc key, v, now⟩) :=
      moveToFront_perm _ i (by simpa using hi)
    have hkeyi : (c.entries.map Entry.key)[i]? = some key := by
      rw [List.getElem?_map, he]
      simp [hek]
    have hkeys : (c.entries.set i ⟨key, enc key, v, now⟩).map Entry.key =
        c.entries.map Entry.key := by
      rw [List.map_set]
      exact set_getElem?_self _ i key hkeyi
    have hkeysPerm : List.Perm ((moveToFront
        (c.entries.set i ⟨key, enc key, v, now⟩) i).map Entry.key)
        (c.entries.map Entry.key) := by
      rw [← hkeys]
      exact hperm'.map Entry.key
    refine ⟨⟨hkeysPerm.symm.nodup hnd, hperm.trans hkeysPerm.symm, ?_, ?_⟩,
      rfl, rfl, rfl, rfl, rfl, rfl⟩
    · have := hkeysPerm.length_eq
      simp only [List.length_map] at this
      rw [this]
      exact hlen
    · intro x hx
      have hx' : x ∈ c.entries.set i ⟨key, enc key, v, now⟩ :=
        hperm'.mem_iff.mp hx
      rcases List.mem_or_eq_of_mem_set hx' with hmem | heq
      · exact hwf x hmem
      · rw [heq]
        exact henc
  · rw [hset]
    have hkeymem : key ∉ c.entries.map Entry.key := fun hm =>
      hkey (hperm.mem_iff.mpr hm)
    have hlastkey : (c.entries.map Entry.key).getLast? = some last.key := by
      rw [List.getLast?_map, hlast]
      rfl
    have herase : (c.entries.map Entry.key).erase last.key =
        (c.entries.map Entry.key).dropLast :=
      erase_getLast_of_nodup hlastkey hnd
    have hlen1 : 1 ≤ c.entries.length := by omega
    refine ⟨⟨?_, ?_, ?_, ?_⟩, rfl, rfl, rfl, rfl, rfl, rfl⟩
    · simp only [List.map_cons, List.nodup_cons, List.map_dropLast]
      constructor
      · intro hmem
        exact hkeymem (List.Sublist.mem hmem (List.dropLast_sublist _))
      · exact List.Nodup.sublist (List.dropLast_sublist _) hnd
    · simp only [List.map_cons, List.map_dropLast]
      rw [← herase]
      exact (hperm.erase last.key).cons key
    · simp only [List.length_cons, List.length_dropLast]
      omega
    · intro x hx
      rcases List.mem_cons.mp hx with heq | hmem
      · rw [heq]
        exact henc
      · exact hwf x (c.entries.dropLast_sublist.mem hmem)
  · rw [hset]
    have hkeymem : key ∉ c.entries.map Entry.key := fun hm =>
      hkey (hperm.mem_iff.mpr hm)
    refine ⟨⟨?_, ?_, ?_, ?_⟩, rfl, rfl, rfl, rfl, rfl, rfl⟩
    · simp only [List.map_cons, List.nodup_cons]
      exact ⟨hkeymem, hnd⟩
    · simp only [List.map_cons]
      exact hperm.cons key
    · simp only [List.length_cons]
      omega
    · intro x hx
      rcases List.mem_cons.mp hx with heq | hmem
      · rw [heq]
        exact henc
      · exact hwf x hmem

end cache

namespace cache

theorem Get_inv {V : Type} (enc : String → hdc.Vector) (c : Cache V)
    (key : String) (ht : 0 < c.threshold) :
    List.Perm (Cache.Get enc c key).2.2.2.entries c.entries ∧
    (Cache.Get enc c key).2.2.2.index = c.index ∧
    (Cache.Get enc c key).2.2.2.capacity = c.capacity ∧
    (Cache.Get enc c key).2.2.2.threshold = c.threshold ∧
    (Cache.Get enc c key).2.2.2.hits + (Cache.Get enc c key).2.2.2.misses =
      c.hits + c.misses + 1 ∧
    (Cache.Get enc c key).2.2.2.sets = c.sets ∧
    (Cache.Get enc c key).2.2.2.simSum = c.simSum +
      (if (Cache.Get enc c key).2.1 then (Cache.Get enc c key).2.2.1 else 0) := by
  have hspec := scanLocked_spec c.threshold (enc key) ht c.entries
  rcases hscan : scanLocked c.threshold (enc key) c.entries with ⟨bi, bs⟩
  rw [hscan] at hspec
  cases bi with
  | none =>
    rw [Get_eq_of_scan_none enc c key bs hscan]
    refine ⟨List.Perm.refl _, rfl, rfl, rfl, ?_, rfl, by simp⟩
    show c.hits + (c.misses + 1) = c.hits + c.misses + 1
    omega
  | some i =>
    obtain ⟨hik, _, _, _, _⟩ := hspec
    have hilen : i < c.entries.length := by simpa using hik
    rw [Get_eq_of_scan_some enc c key i bs c.entries[i] hscan
      (List.getElem?_eq_getElem hilen)]
    refine ⟨moveToFront_perm _ i hilen, rfl, rfl, rfl, ?_, rfl, by simp⟩
    show c.hits + 1 + c.misses = c.hits + c.misses + 1
    omega

theorem Delete_inv {V : Type} {D : Nat} (c : Cache V) (key : String)
    (hInv : Inv D c.capacity c) :
    Inv D c.capacity (Cache.Delete c key).2 ∧
    (Cache.Delete c key).2.capacity = c.capacity ∧
    (Cache.Delete c key).2.threshold = c.threshold ∧
    (Cache.Delete c key).2.hits = c.hits ∧
    (Cache.Delete c key).2.misses = c.misses ∧
    (Cache.Delete c key).2.sets = c.sets ∧
    (Cache.Delete c key).2.simSum = c.simSum := by
  obtain ⟨hnd, hperm, hlen, hwf⟩ := hInv
  unfold Cache.Delete
  split
  · refine ⟨⟨?_, ?_, ?_, ?_⟩, rfl, rfl, rfl, rfl, rfl, rfl⟩
    · rw [map_eraseP_key]
      exact List.Nodup.erase key hnd
    · rw [map_eraseP_key]
      exact hperm.erase key
    · calc (c.entries.eraseP (fun e => decide (e.key = key))).length
          ≤ c.entries.length := (List.eraseP_sublist _).length_le
        _ ≤ c.capacity := hlen
    · intro x hx
      exact hwf x (List.Sublist.mem hx (List.eraseP_sublist _))
  · exact ⟨⟨hnd, hperm, hlen, hwf⟩, rfl, rfl, rfl, rfl, rfl, rfl⟩

theorem step_inv {V : Type} {D : Nat} (enc : String → hdc.Vector)
    (c : Cache V) (op : Op V)
    (henc : ∀ k, hdc.WF (enc k) ∧ (enc k).dims = D)
    (ht : 0 < c.threshold) (hcap : 1 ≤ c.capacity)
    (hInv : Inv D c.capacity c) :
    Inv D c.capacity (step enc c op).1 ∧
    (step enc c op).1.capacity = c.capacity ∧
    (step enc c op).1.threshold = c.threshold ∧
    ((step enc c op).1.hits + (step enc c op).1.misses =
      c.hits + c.misses + countGets [op]) ∧
    (step enc c op).1.sets = c.sets + countSets [op] ∧
    (step enc c op).1.simSum = c.simSum + hitsSum (step enc c op).2.toList := by
  cases op with
  | set k v now =>
    obtain ⟨h1, h2, h3, h4, h5, h6, h7⟩ := Set_inv enc c k v now (henc k) hcap hInv
    refine ⟨h1, h2, h3, ?_, ?_, ?_⟩
    · show (Cache.Set enc c k v now).hits + (Cache.Set enc c k v now).misses = _
      rw [h4, h5]
      simp [countGets, List.countP_cons, List.countP_nil]
    · show (Cache.Set enc c k v now).sets = _
      rw [h6]
      simp [countSets, List.countP_cons, List.countP_nil]
    · show (Cache.Set enc c k v now).simSum = _
      rw [h7]
      simp [step, hitsSum]
  | get k =>
    obtain ⟨hperm', hidx, hcap', hth, hhm, hsets, hsim⟩ := Get_inv enc c k ht
    obtain ⟨hnd, hperm, hlen, hwf⟩ := hInv
    have hkeys : List.Perm ((Cache.Get enc c k).2.2.2.entries.map Entry.key)
        (c.entries.map Entry.key) := hperm'.map Entry.key
    refine ⟨⟨?_, ?_, ?_, ?_⟩, ?_, ?_, ?_, ?_, ?_⟩
    · show ((Cache.Get enc c k).2.2.2.entries.map Entry.key).Nodup
      exact hkeys.symm.nodup hnd
    · show List.Perm (Cache.Get enc c k).2.2.2.index
        ((Cache.Get enc c k).2.2.2.entries.map Entry.key)
      rw [hidx]
      exact hperm.trans hkeys.symm
    · show (Cache.Get enc c k).2.2.2.entries.length ≤ c.capacity
      rw [hperm'.length_eq]
      exact hlen
    · show ∀ e ∈ (Cache.Get enc c k).2.2.2.entries,
        hdc.WF e.vec ∧ e.vec.dims = D
      intro x hx
      exact hwf x (hperm'.mem_iff.mp hx)
    · exact hcap'
    · exact hth
    · show (Cache.Get enc c k).2.2.2.hits +
        (Cache.Get enc c k).2.2.2.misses = _
      rw [hhm]
      simp [countGets, List.countP_cons, List.countP_nil]
    · show (Cache.Get enc c k).2.2.2.sets = _
      rw [hsets]
      simp [countSets, List.countP_cons, List.countP_nil]
    · show (Cache.Get enc c k).2.2.2.simSum = c.simSum +
        hitsSum [((Cache.Get enc c k).2.1, (Cache.Get enc c k).2.2.1)]
      rw [hsim]
      simp [hitsSum]
  | del k =>
    obtain ⟨h1, h2, h3, h4, h5, h6, h7⟩ := Delete_inv (D := D) c k hInv
    refine ⟨h1, h2, h3, ?_, ?_, ?_⟩
    · show (Cache.Delete c k).2.hits + (Cache.Delete c k).2.misses = _
      rw [h4, h5]
      simp [countGets, List.countP_cons, List.countP_nil]
    · show (Cache.Delete c k).2.sets = _
      rw [h6]
      simp [countSets, List.countP_cons, List.countP_nil]
    · show (Cache.Delete c k).2.simSum = _
      rw [h7]
      simp [step, hitsSum]

end cache

namespace cache

theorem hitsSum_append (a b : List (Bool × ℚ)) :
    hitsSum (a ++ b) = hitsSum a + hitsSum b := by
  simp [hitsSum]

theorem exec_inv {V : Type} {D : Nat} (enc : String → hdc.Vector)
    (henc : ∀ k, hdc.WF (enc k) ∧ (enc k).dims = D) :
    ∀ (ops : List (Op V)) (c : Cache V), 0 < c.threshold → 1 ≤ c.capacity →
      Inv D c.capacity c →
      Inv D c.capacity (exec enc c ops).1 ∧
      (exec enc c ops).1.capacity = c.capacity ∧
      (exec enc c ops).1.threshold = c.threshold ∧
      ((exec enc c ops).1.hits + (exec enc c ops).1.misses =
        c.hits + c.misses + countGets ops) ∧
      (exec enc c ops).1.sets = c.sets + countSets ops ∧
      (exec enc c ops).1.simSum = c.simSum + hitsSum (exec enc c ops).2
  | [], c, ht, hcap, hInv => by
    refine ⟨hInv, rfl, rfl, ?_, ?_, ?_⟩ <;>
      simp [exec, countGets, countSets, hitsSum]
  | op :: rest, c, ht, hcap, hInv => by
    obtain ⟨h1, h2, h3, h4, h5, h6⟩ := step_inv enc c op henc ht hcap hInv
    have ih := exec_inv enc henc rest (step enc c op).1
      (by rw [h3]; exact ht) (by rw [h2]; exact hcap) (by rw [h2]; exact h1)
    obtain ⟨i1, i2, i3, i4, i5, i6⟩ := ih
    have hexec1 : (exec enc c (op :: rest)).1 =
        (exec enc (step enc c op).1 rest).1 := rfl
    have hexec2 : (exec enc c (op :: rest)).2 =
        (step enc c op).2.toList ++ (exec enc (step enc c op).1 rest).2 := rfl
    rw [h2] at i1 i2
    rw [h3] at i3
    refine ⟨by rw [hexec1]; exact i1, by rw [hexec1]; exact i2,
      by rw [hexec1]; exact i3, ?_, ?_, ?_⟩
    · rw [hexec1, i4, h4]
      have : countGets (op :: rest) = countGets [op] + countGets rest := by
        simp [countGets, List.countP_cons]
        omega
      omega
    · rw [hexec1, i5, h5]
      have : countSets (op :: rest) = countSets [op] + countSets rest := by
        simp [countSets, List.countP_cons]
        omega
      omega
    · rw [hexec1, hexec2, i6, h6, hitsSum_append]
      ring

end cache

/-- C8: after any finite sequence of completed operations from a freshly
constructed cache, the index holds exactly the keys of the stored entries
(with no duplicates), the entry count never exceeds the capacity, every
stored vector has the encoder's dimension, `hits + misses` equals the
number of completed `Get` calls, `sets` the number of completed `Set`
calls, and `simSum` the sum of the similarities returned on hits. The
hypotheses are the constructor validations (`threshold ∈ (0,1]`,
`capacity ≥ 1`) and the encoder contract. -/
theorem cache_invariants {V : Type} (enc : String → hdc.Vector)
    (D C : Nat) (t : ℚ) (ht0 : 0 < t) (ht1 : t ≤ 1) (hcap : 1 ≤ C)
    (henc : ∀ k, hdc.WF (enc k) ∧ (enc k).dims = D)
    (ops : List (cache.Op V)) :
    ((∀ k, k ∈ (cache.exec enc (cache.Cache.mkNew V t C) ops).1.index ↔
      ∃ e ∈ (cache.exec enc (cache.Cache.mkNew V t C) ops).1.entries,
        e.key = k) ∧
      ((cache.exec enc (cache.Cache.mkNew V t C) ops).1.entries.map
        cache.Entry.key).Nodup) ∧
    (cache.exec enc (cache.Cache.mkNew V t C) ops).1.entries.length ≤ C ∧
    (∀ e ∈ (cache.exec enc (cache.Cache.mkNew V t C) ops).1.entries,
      e.vec.dims = D) ∧
    (cache.exec enc (cache.Cache.mkNew V t C) ops).1.hits +
      (cache.exec enc (cache.Cache.mkNew V t C) ops).1.misses =
        cache.countGets ops ∧
    (cache.exec enc (cache.Cache.mkNew V t C) ops).1.sets =
      cache.countSets ops ∧
    (cache.exec enc (cache.Cache.mkNew V t C) ops).1.simSum =
      cache.hitsSum (cache.exec enc (cache.Cache.mkNew V t C) ops).2 := by
  have h0 : cache.Inv D (cache.Cache.mkNew V t C).capacity
      (cache.Cache.mkNew V t C) :=
    ⟨List.nodup_nil, List.Perm.refl _, by simp [cache.Cache.mkNew], by
      intro e he
      simp [cache.Cache.mkNew] at he⟩
  obtain ⟨i1, i2, i3, i4, i5, i6⟩ := cache.exec_inv enc henc ops
    (cache.Cache.mkNew V t C) ht0 hcap h0
  obtain ⟨hnd, hperm, hlen, hwf⟩ := i1
  refine ⟨⟨?_, hnd⟩, hlen, fun e he => (hwf e he).2, ?_, ?_, ?_⟩
  · intro k
    rw [hperm.mem_iff, List.mem_map]
  · simpa [cache.Cache.mkNew] using i4
  · simpa [cache.Cache.mkNew] using i5
  · simpa [cache.Cache.mkNew] using i6

/-- Witness for C8: the encoder constant at a well-formed vector, three
operations (one set, one get that hits, one delete); the counters come
out as 1 get, 1 set, and the hit similarity 1. -/
theorem cache_invariants_witness :
    (cache.exec (fun _ => (⟨1, [1]⟩ : hdc.Vector))
      (cache.Cache.mkNew Nat (1/2) 2)
      [cache.Op.set "a" 5 0, cache.Op.get "a"]).1.sets = 1 ∧
    (cache.exec (fun _ => (⟨1, [1]⟩ : hdc.Vector))
      (cache.Cache.mkNew Nat (1/2) 2)
      [cache.Op.set "a" 5 0, cache.Op.get "a"]).1.hits +
    (cache.exec (fun _ => (⟨1, [1]⟩ : hdc.Vector))
      (cache.Cache.mkNew Nat (1/2) 2)
      [cache.Op.set "a" 5 0, cache.Op.get "a"]).1.misses = 1 := by
  have h := cache_invariants (fun _ => (⟨1, [1]⟩ : hdc.Vector)) 1 2 (1/2)
    (by norm_num) (by norm_num) (by norm_num)
    (by
      intro k
      refine ⟨?_, rfl⟩
      show hdc.WF (⟨1, [1]⟩ : hdc.Vector)
      decide)
    [cache.Op.set "a" 5 0, cache.Op.get "a"]
  refine ⟨?_, ?_⟩
  · have := h.2.2.2.2.1
    simpa [cache.countSets, List.countP_cons, List.countP_nil] using this
  · have := h.2.2.2.1
    simpa [cache.countGets, List.countP_cons, List.countP_nil] using this
